import Mathlib

/-!
Shallow embedding of the propositional-logic core of the repository
(`propositions/syntax.py`, `propositions/semantics.py`,
`propositions/operators.py`), together with proofs of the specification
claims about it.

Conventions used throughout:
* Python strings are embedded as `String` (parsing works over `List Char`).
* Python dictionaries (models) are embedded as insertion-ordered
  association lists with unique keys, built by `dictInsert`, which has
  exactly the CPython semantics: an existing key keeps its position and
  gets the new value, a fresh key is appended.
* Fallible code (the `raise` branch of `evaluate`, the rewrites' `raise`
  branches) returns `Option`.
* The `assert` statements of the `Formula` constructor are modelled by the
  predicate `formulaWf`: a tree with `formulaWf = false` is one whose
  construction in the source raises `AssertionError`.
* Other `assert` statements (preconditions of `all_models`, `synthesize`,
  `evaluate`, …) appear as hypotheses of the theorems.
-/

/-- Python `str.isdecimal` on a single character (Unicode category Nd).
Within the Basic Latin and Latin-1 range that this development works over,
these are exactly the ASCII digits `0`-`9`. -/
def pyIsDecimal (c : Char) : Bool := c.isDigit

/-- Python `str.isdigit` on a single character (Unicode property
Numeric_Type = Digit or Decimal).  Within Basic Latin and Latin-1 this
accepts the ASCII digits together with the superscript digits U+00B9,
U+00B2 and U+00B3, which are `isdigit` but not `isdecimal` in Python. -/
def pyIsDigit (c : Char) : Bool :=
  c.isDigit || c = '¹' || c = '²' || c = '³'

/-- Embeds `is_variable` of `propositions/syntax.py`: first character
between `p` and `z`, remainder (if any) all decimal digits.  The source
indexes `string[0]` and so would raise on the empty string; it is never
called on one, and we return `false` there. -/
def is_variable (s : String) : Bool :=
  match s.data with
  | [] => false
  | c :: rest => decide ('p' ≤ c) && decide (c ≤ 'z') && rest.all pyIsDecimal

/-- Embeds `is_constant` of `propositions/syntax.py`. -/
def is_constant (s : String) : Bool := s == "T" || s == "F"

/-- Embeds `is_unary` of `propositions/syntax.py`. -/
def is_unary (s : String) : Bool := s == "~"

/-- Embeds `is_binary` of `propositions/syntax.py` exactly as the source
has it: only `&`, `|` and `->` are accepted.  The chapter-3 operator set
(`+`, `<->`, `-&`, `-|` in addition) is present in the source only as a
commented-out line. -/
def is_binary (s : String) : Bool := s == "&" || s == "|" || s == "->"

/-- Modelled from the spec: the chapter-3 binary-operator recognizer,
`{'&', '|', '->', '+', '<->', '-&', '-|'}`.  In the source this body
exists only as the commented-out line of `is_binary`, but the repository's
own `test_chapter03.py` requires it (`assert operators_test.is_binary('+'),
"Change is_binary() before testing Chapter 3 tasks."`), and
`propositions/operators.py` and `evaluate` both handle all seven
operators. -/
def is_binary_chapter3 (s : String) : Bool :=
  s == "&" || s == "|" || s == "->" || s == "+" || s == "<->" || s == "-&" || s == "-|"

/-- The `Formula` tree of `propositions/syntax.py`.  A node stores its
`root` string; `neg` is the unique unary node (root `~`).  The
constructor's `assert` statements are modelled by `formulaWf` below. -/
inductive Formula where
  | var (root : String)
  | const (root : String)
  | neg (first : Formula)
  | binOp (root : String) (first second : Formula)
deriving DecidableEq

/-- Embeds the `assert` statements of `Formula.__init__`: a tree is
well formed iff every construction step would pass the asserts, i.e. every
`var` root satisfies `is_variable`, every `const` root `is_constant`, and
every binary root `is_binary` (the source's three-operator version).  A
tree with `formulaWf = false` is one whose construction raises
`AssertionError` in the source. -/
def formulaWf : Formula → Bool
  | .var s => is_variable s
  | .const s => is_constant s
  | .neg f => formulaWf f
  | .binOp op l r => is_binary op && formulaWf l && formulaWf r

/-- Well-formedness of a tree under the chapter-3 operator set
(`is_binary_chapter3`), i.e. constructibility in the intended chapter-3
configuration of the source. -/
def formulaWfChapter3 : Formula → Bool
  | .var s => is_variable s
  | .const s => is_constant s
  | .neg f => formulaWfChapter3 f
  | .binOp op l r => is_binary_chapter3 op && formulaWfChapter3 l && formulaWfChapter3 r

/-- Embeds `Formula.__repr__` (the canonical text), as a character list:
variables and constants print literally, a unary node prints `~` followed
by its operand, a binary node is fully parenthesized with the operator
between the operands. -/
def Formula.reprL : Formula → List Char
  | .var s => s.data
  | .const s => s.data
  | .neg f => '~' :: f.reprL
  | .binOp op l r => '(' :: (l.reprL ++ op.data ++ r.reprL ++ [')'])

/-- Canonical text of a formula as a `String` (`str(formula)` in the
source). -/
def Formula.reprStr (f : Formula) : String := ⟨f.reprL⟩

/-- Embeds `Formula.variables` (the free-variable set), as the list of
variable occurrences; the source returns the corresponding set, so
statements about it are phrased via membership. -/
def Formula.variablesL : Formula → List String
  | .var s => [s]
  | .const _ => []
  | .neg f => f.variablesL
  | .binOp _ l r => l.variablesL ++ r.variablesL

/-- CPython dictionary insertion: an existing key keeps its position in
the list and gets the new value; a fresh key is appended at the end. -/
def dictInsert : List (String × Bool) → String → Bool → List (String × Bool)
  | [], k, v => [(k, v)]
  | (k', v') :: rest, k, v =>
    if k' = k then (k, v) :: rest else (k', v') :: dictInsert rest k v

/-- The dictionary `{v: val for v, val in zip(variables, values)}` used by
`all_models` of `propositions/semantics.py`: sequential insertion of the
zipped pairs into an (initially empty) dict. -/
def dictOfZip (vars : List String) (values : List Bool) : List (String × Bool) :=
  (vars.zip values).foldl (fun d p => dictInsert d p.1 p.2) []

/-- Dictionary lookup (`model[v]`); `none` models a `KeyError`. -/
def dictGet (d : List (String × Bool)) (k : String) : Option Bool :=
  (d.find? (fun p => p.1 == k)).map (fun p => p.2)

/-- Dictionary key view (`model.keys()`), in insertion order. -/
def dictKeys (d : List (String × Bool)) : List String := d.map (fun p => p.1)

/-- Python `sorted` on a list of strings: ascending lexicographic order by
code point, realized by (stable) insertion sort over the code-point order
on the underlying character lists. -/
def sortStrings (l : List String) : List String :=
  List.insertionSort (fun a b : String => a.data ≤ b.data) l

/-- Embeds `evaluate` of `propositions/semantics.py`.  The source asserts
that the model's variable set is a superset of the formula's variables;
a missing variable surfaces here as `none` (in the source, as an
`AssertionError`/`KeyError`), as does the source's `raise` on an unknown
binary operator.  All seven chapter-3 binary operators are handled, as in
the source. -/
def evaluate : Formula → List (String × Bool) → Option Bool
  | .var s, m => dictGet m s
  | .const s, _ => some (s == "T")
  | .neg f, m => (evaluate f m).map (fun b => !b)
  | .binOp op l r, m => do
    let a ← evaluate l m
    let b ← evaluate r m
    if op == "&" then some (a && b)
    else if op == "|" then some (a || b)
    else if op == "->" then some (!a || b)
    else if op == "+" then some ((a && !b) || (!a && b))
    else if op == "<->" then some (a == b)
    else if op == "-&" then some (!(a && b))
    else if op == "-|" then some (!(a || b))
    else none

/-- The truth-value tuples produced by
`itertools.product([False, True], repeat=n)`, in exactly that order: the
first coordinate is most significant, `False` precedes `True`. -/
def boolTuples : Nat → List (List Bool)
  | 0 => [[]]
  | n + 1 => (boolTuples n).map (fun t => false :: t) ++ (boolTuples n).map (fun t => true :: t)

/-- Embeds `all_models` of `propositions/semantics.py` (materialized: the
source yields the dictionaries lazily, in this order).  The source asserts
`is_variable(v)` for every list element; that precondition appears as a
hypothesis of the theorems. -/
def all_models (vars : List String) : List (List (String × Bool)) :=
  (boolTuples vars.length).map (dictOfZip vars)

/-- Big-endian binary digits of `i` in `n` bits, with `false` for 0 and
`true` for 1: the head is the most-significant bit.  This is the
specification-side description of the enumeration order of
`all_models`. -/
def bitsBE : Nat → Nat → List Bool
  | 0, _ => []
  | n + 1, i => decide (2 ^ n ≤ i) :: bitsBE n (i % 2 ^ n)

/-- Embeds `truth_values` of `propositions/semantics.py` (materialized). -/
def truth_values (formula : Formula) (models : List (List (String × Bool))) :
    List (Option Bool) :=
  models.map (evaluate formula)

/-- The literal chosen by `_synthesize_for_model` for a variable `v`:
`Formula(v)` if the model maps `v` to `True`, else `Formula('~', Formula(v))`.
The source reads `model[v]` for a key `v` of the model, so the lookup
always succeeds; `getD false` covers the unreachable `KeyError`. -/
def litForModel (m : List (String × Bool)) (v : String) : Formula :=
  if (dictGet m v).getD false then Formula.var v else Formula.neg (Formula.var v)

/-- Embeds `_synthesize_for_model` of `propositions/semantics.py`: one
conjunctive clause with a literal per key of the model, keys in sorted
order, folded left-to-right with `&`; a single literal is returned as is.
The source builds the literal list first and then folds it; here the fold
runs directly over the sorted key list (`List.foldl_map`).  The source
asserts the model nonempty; the `[]` branch is unreachable under that
precondition. -/
def conjClauseOfVars (m : List (String × Bool)) : List String → Formula
  | [] => Formula.const "F"
  | [v] => litForModel m v
  | v0 :: v1 :: rest =>
    rest.foldl (fun conj v => Formula.binOp "&" conj (litForModel m v))
      (Formula.binOp "&" (litForModel m v0) (litForModel m v1))

def synthesize_for_model (m : List (String × Bool)) : Formula :=
  conjClauseOfVars m (sortStrings (dictKeys m))

/-- Embeds `synthesize` of `propositions/semantics.py` (the DNF
synthesizer): a conjunctive clause per true row of the truth table, folded
left-to-right with `|`; no true row yields the contradiction
`(~v0 & v0)` built from the first variable; a single clause is returned
as is.  The source asserts `len(variables) > 0`; the branch for an empty
variable list is unreachable under that precondition. -/
def dnfOfClauses (vars : List String) : List Formula → Formula
  | [] =>
    match vars with
    | v :: _ => Formula.binOp "&" (Formula.neg (Formula.var v)) (Formula.var v)
    | [] => Formula.const "F"
  | [c] => c
  | c0 :: c1 :: rest =>
    rest.foldl (fun disj c => Formula.binOp "|" disj c) (Formula.binOp "|" c0 c1)

def synthesize (vars : List String) (values : List Bool) : Formula :=
  dnfOfClauses vars (((all_models vars).zip values).filterMap
    (fun p => if p.2 then some (synthesize_for_model p.1) else none))

/-- The complemented literal of the CNF clause construction: the variable
itself if the model maps it to `False`, its negation if `True`. -/
def litForModelC (m : List (String × Bool)) (v : String) : Formula :=
  if (dictGet m v).getD false then Formula.neg (Formula.var v) else Formula.var v

/-- Modelled from the spec: `_synthesize_for_all_except_model` of
`propositions/semantics.py` is an unimplemented stub (`# Optional Task
2.8`); per §4.3 of the spec and its docstring it is the single disjunctive
clause that is false exactly in the given model: one complemented literal
per key (variable if false in the model, negation if true), keys in sorted
order, folded left-to-right with `|`. -/
def disjClauseOfVars (m : List (String × Bool)) : List String → Formula
  | [] => Formula.const "T"
  | [v] => litForModelC m v
  | v0 :: v1 :: rest =>
    rest.foldl (fun disj v => Formula.binOp "|" disj (litForModelC m v))
      (Formula.binOp "|" (litForModelC m v0) (litForModelC m v1))

def synthesize_for_all_except_model (m : List (String × Bool)) : Formula :=
  disjClauseOfVars m (sortStrings (dictKeys m))

/-- Modelled from the spec: `synthesize_cnf` of
`propositions/semantics.py` is an unimplemented stub (`# Optional Task
2.9`); per §4.3 of the spec it is the dual of `synthesize`: a disjunctive
clause per false row of the truth table, folded left-to-right with `&`;
no false row yields the tautology `(v0 | ~v0)` from the first variable; a
single clause is returned as is. -/
def cnfOfClauses (vars : List String) : List Formula → Formula
  | [] =>
    match vars with
    | v :: _ => Formula.binOp "|" (Formula.var v) (Formula.neg (Formula.var v))
    | [] => Formula.const "T"
  | [c] => c
  | c0 :: c1 :: rest =>
    rest.foldl (fun conj c => Formula.binOp "&" conj c) (Formula.binOp "&" c0 c1)

def synthesize_cnf (vars : List String) (values : List Bool) : Formula :=
  cnfOfClauses vars (((all_models vars).zip values).filterMap
    (fun p => if p.2 then none else some (synthesize_for_all_except_model p.1)))

/-- Outcome of `Formula._parse_prefix`: a parsed formula with the
unconsumed suffix, a failure with a human-readable message (quote
characters of the source messages elided), or an uncaught fault
(`AssertionError` from the `Formula` constructor).  `crash` is also the
value on fuel exhaustion of `parsePrefixF`, which never occurs for the
fuel `parsePrefixL` supplies. -/
inductive ParseResult where
  | ok (f : Formula) (rest : List Char)
  | err (msg : String)
  | crash
deriving DecidableEq

/-- Finishing steps of the parenthesized branch of `Formula._parse_prefix`
after the binary-operator token has been consumed: parse result of the
second operand in, closing parenthesis check, node construction. -/
def finishBinary (op : String) (first : Formula) (res : ParseResult) : ParseResult :=
  match res with
  | .ok second rem =>
    match rem with
    | ')' :: rem' => .ok (.binOp op first second) rem'
    | _ => .err "Expected closing parenthesis after second operand"
  | .err _ => .err "Expected second operand after operator"
  | .crash => .crash

/-- Embeds `Formula._parse_prefix` of `propositions/syntax.py`, with a
fuel argument for termination; every recursive call of the source is on a
strict suffix of its input, so any `fuel > length` behaves identically
(every theorem below either holds for all fuel or is invoked through
`parsePrefixL`).  Branches in source order: empty input; a variable head
(`p`..`z`) with a maximal scan of `str.isdigit` characters, then the
`Formula` constructor (which re-checks with `is_variable`, i.e. with
`str.isdecimal` — a mismatch crashes); a constant; `~` with a recursive
operand; `(` with first operand, operator token tried as `->` then `&`
then `|`, second operand and closing parenthesis; otherwise an error. -/
def parsePrefixF : Nat → List Char → ParseResult
  | 0, _ => .crash
  | _ + 1, [] => .err "Empty string"
  | fuel + 1, c :: rest =>
    if is_variable ⟨[c]⟩ then
      let v : String := ⟨c :: rest.takeWhile pyIsDigit⟩
      if is_variable v then .ok (.var v) (rest.dropWhile pyIsDigit)
      else .crash
    else if is_constant ⟨[c]⟩ then .ok (.const ⟨[c]⟩) rest
    else if is_unary ⟨[c]⟩ then
      match parsePrefixF fuel rest with
      | .ok operand rem => .ok (.neg operand) rem
      | .err _ => .err "Expected operand after unary operator"
      | .crash => .crash
    else if c = '(' then
      match parsePrefixF fuel rest with
      | .err _ => .err "Expected first operand after open parenthesis"
      | .crash => .crash
      | .ok first rem =>
        match rem with
        | '-' :: '>' :: rem' => finishBinary "->" first (parsePrefixF fuel rem')
        | '&' :: rem' => finishBinary "&" first (parsePrefixF fuel rem')
        | '|' :: rem' => finishBinary "|" first (parsePrefixF fuel rem')
        | rem' => .err ("Expected binary operator after first operand, found: " ++ ⟨rem'.take 2⟩)
    else .err "Unexpected character"

/-- `Formula._parse_prefix` on a character list, with sufficient fuel. -/
def parsePrefixL (s : List Char) : ParseResult := parsePrefixF (s.length + 1) s

/-- `Formula._parse_prefix` on a string. -/
def parsePrefixS (s : String) : ParseResult := parsePrefixL s.data

/-- Modelled from the spec: `Formula.is_formula` of
`propositions/syntax.py` is an unimplemented stub (`# Task 1.5`); per
§4.1 of the spec a string is a valid formula representation iff a prefix
parse succeeds and consumes the entire input ("any leftover text means the
whole string is rejected"). -/
def is_formula (s : String) : Bool :=
  match parsePrefixS s with
  | .ok _ [] => true
  | _ => false

/-- Modelled from the spec: `Formula.parse` of `propositions/syntax.py` is
an unimplemented stub (`# Task 1.6`); per its docstring and §4.1 of the
spec it returns the formula whose canonical text is the whole input,
obtained from the prefix parser; `none` on any failure. -/
def Formula.parse (s : String) : Option Formula :=
  match parsePrefixS s with
  | .ok f [] => some f
  | _ => none

/-- Embeds `to_not_and_or` of `propositions/operators.py`: eliminates
constants (`T` to `(p|~p)`, `F` to `(p&~p)`, both built from the reserved
variable `p`) and the operators `->`, `+`, `<->`, `-&`, `-|` in favour of
`~`, `&`, `|`; `none` models the source's `raise` on an unknown
operator. -/
def to_not_and_or : Formula → Option Formula
  | .var s => some (.var s)
  | .const s =>
    if s == "T" then some (.binOp "|" (.var "p") (.neg (.var "p")))
    else some (.binOp "&" (.var "p") (.neg (.var "p")))
  | .neg f => (to_not_and_or f).map (fun g => .neg g)
  | .binOp op l r => do
    let left ← to_not_and_or l
    let right ← to_not_and_or r
    if op == "&" || op == "|" then some (.binOp op left right)
    else if op == "->" then some (.binOp "|" (.neg left) right)
    else if op == "+" then
      some (.binOp "&" (.binOp "|" left right) (.neg (.binOp "&" left right)))
    else if op == "<->" then
      some (.binOp "|" (.binOp "&" left right) (.binOp "&" (.neg left) (.neg right)))
    else if op == "-&" then some (.neg (.binOp "&" left right))
    else if op == "-|" then some (.neg (.binOp "|" left right))
    else none

/-- The recursive body of `to_not_and` of `propositions/operators.py`
applied after the initial `to_not_and_or` pass.  The source re-enters
`to_not_and` on the subterms of that pass's output, which re-applies
`to_not_and_or` to them; `to_not_and_or` is the identity on its own
output (theorem `to_not_and_or_fix` below), so that re-entry reduces to
this structural recursion. -/
def notAndBody : Formula → Option Formula
  | .var s => some (.var s)
  | .const s => some (.const s)
  | .neg f => (notAndBody f).map (fun g => .neg g)
  | .binOp op l r => do
    let left ← notAndBody l
    let right ← notAndBody r
    if op == "&" then some (.binOp "&" left right)
    else if op == "|" then some (.neg (.binOp "&" (.neg left) (.neg right)))
    else none

/-- Embeds `to_not_and` of `propositions/operators.py`: the
`to_not_and_or` pass followed by De Morgan elimination of `|`;
`none` models the source's `raise` branches. -/
def to_not_and (f : Formula) : Option Formula := (to_not_and_or f).bind notAndBody

/-- The recursive body of `to_nand` of `propositions/operators.py` applied
after the initial `to_not_and` pass, whose output uses only `~` and `&`
(theorem `to_not_and_fix` justifies the source's re-entry into `to_nand`,
exactly as for `notAndBody`).  A unary node becomes `(g -& g)`; any binary
node (necessarily `&` here) becomes `((l -& r) -& (l -& r))`, as in the
source, which does not inspect the operator. -/
def nandBody : Formula → Option Formula
  | .var s => some (.var s)
  | .const s => some (.const s)
  | .neg f => (nandBody f).map (fun g => .binOp "-&" g g)
  | .binOp _ l r => do
    let left ← nandBody l
    let right ← nandBody r
    some (.binOp "-&" (.binOp "-&" left right) (.binOp "-&" left right))

/-- Embeds `to_nand` of `propositions/operators.py`. -/
def to_nand (f : Formula) : Option Formula := (to_not_and f).bind nandBody

/-- The recursive body of `to_implies_not` of `propositions/operators.py`
applied after the initial `to_not_and_or` pass (the source's re-entry is
again covered by `to_not_and_or_fix`).  The constant branches of the
source are kept although they are unreachable: `to_not_and_or` output
never contains a constant. -/
def impliesNotBody : Formula → Option Formula
  | .var s => some (.var s)
  | .const s =>
    if s == "T" then some (.binOp "->" (.var "p") (.var "p"))
    else some (.binOp "->" (.var "p") (.neg (.var "p")))
  | .neg f => (impliesNotBody f).map (fun g => .neg g)
  | .binOp op l r => do
    let left ← impliesNotBody l
    let right ← impliesNotBody r
    if op == "&" then some (.neg (.binOp "->" left (.neg right)))
    else if op == "|" then some (.binOp "->" (.neg left) right)
    else if op == "->" then some (.binOp "->" left right)
    else none

/-- Embeds `to_implies_not` of `propositions/operators.py`. -/
def to_implies_not (f : Formula) : Option Formula :=
  (to_not_and_or f).bind impliesNotBody

/-- The recursive body of `to_implies_false` of
`propositions/operators.py` applied after the initial `to_not_and_or`
pass (re-entry covered by `to_not_and_or_fix`); constant branches kept
though unreachable, as in `impliesNotBody`. -/
def impliesFalseBody : Formula → Option Formula
  | .var s => some (.var s)
  | .const s =>
    if s == "T" then some (.binOp "->" (.var "p") (.var "p"))
    else some (.binOp "->" (.var "p") (.neg (.var "p")))
  | .neg f => (impliesFalseBody f).map (fun g => .binOp "->" g (.const "F"))
  | .binOp op l r => do
    let left ← impliesFalseBody l
    let right ← impliesFalseBody r
    if op == "&" then
      some (.binOp "->" (.binOp "->" left (.binOp "->" right (.const "F"))) (.const "F"))
    else if op == "|" then some (.binOp "->" (.binOp "->" left (.const "F")) right)
    else if op == "->" then some (.binOp "->" left right)
    else none

/-- Embeds `to_implies_false` of `propositions/operators.py`. -/
def to_implies_false (f : Formula) : Option Formula :=
  (to_not_and_or f).bind impliesFalseBody

/-- Operator-basis predicate for the output of `to_not_and_or`: only
variables, `~`, `&` and `|`, with no constants. -/
def opsNotAndOr : Formula → Bool
  | .var _ => true
  | .const _ => false
  | .neg f => opsNotAndOr f
  | .binOp op l r => (op == "&" || op == "|") && opsNotAndOr l && opsNotAndOr r

/-- Operator-basis predicate for the output of `to_not_and`: only
variables, `~` and `&`, with no constants. -/
def opsNotAnd : Formula → Bool
  | .var _ => true
  | .const _ => false
  | .neg f => opsNotAnd f
  | .binOp op l r => op == "&" && opsNotAnd l && opsNotAnd r

/-- Whether a constant occurs in the formula (the condition under which
the rewrites may introduce the reserved variable `p`). -/
def hasConst : Formula → Bool
  | .var _ => false
  | .const _ => true
  | .neg f => hasConst f
  | .binOp _ l r => hasConst l || hasConst r

/-- Modelled from the spec: the `InferenceRule` record of the absent
`propositions/proofs.py` module, per §3 of the spec — an ordered list of
assumption formulas plus one conclusion formula. -/
structure InferenceRule where
  assumptions : List Formula
  conclusion : Formula
deriving DecidableEq

/-- Modelled from the spec: the variable list `sorted(V)` of §4.5, where
`V` is the union of the free variables across all assumptions and the
conclusion. -/
def InferenceRule.sortedVars (r : InferenceRule) : List String :=
  sortStrings (((r.assumptions.map Formula.variablesL).flatten ++
    r.conclusion.variablesL).dedup)

/-- Modelled from the spec: `evaluate_inference` of
`propositions/semantics.py` is an unimplemented stub (`# Task 4.2`); per
its docstring and §4.5 of the spec, the rule holds in the model iff
whenever all assumptions evaluate to true, the conclusion also evaluates
to true. -/
def evaluate_inference (r : InferenceRule) (m : List (String × Bool)) : Bool :=
  if r.assumptions.all (fun a => evaluate a m == some true) then
    evaluate r.conclusion m == some true
  else true

/-- Modelled from the spec: `is_sound_inference` of
`propositions/semantics.py` is an unimplemented stub (`# Task 4.3`); per
§4.5 of the spec, the rule is sound iff it holds in every model of
`all_models(sorted(V))`. -/
def is_sound_inference (r : InferenceRule) : Bool :=
  (all_models r.sortedVars).all (evaluate_inference r)

/-- Claim C2: refuted at a concrete input.  `to_nand` applied to `~p`
builds the node `(p-&p)`, whose root `-&` the source's `Formula`
constructor rejects (`is_binary '-&'` is false, the chapter-3 operator
line being commented out), so the source raises `AssertionError` instead
of returning; the rewrite does not succeed.  Under the chapter-3 operator
set required by the repository's own test the output is well formed and
agrees with the input on both models of `p`. -/
theorem to_nand_constructor_rejects :
    is_binary "-&" = false ∧
    to_nand (Formula.neg (Formula.var "p")) =
      some (Formula.binOp "-&" (Formula.var "p") (Formula.var "p")) ∧
    formulaWf (Formula.binOp "-&" (Formula.var "p") (Formula.var "p")) = false ∧
    formulaWfChapter3 (Formula.binOp "-&" (Formula.var "p") (Formula.var "p")) = true ∧
    evaluate (Formula.binOp "-&" (Formula.var "p") (Formula.var "p")) [("p", true)] =
      evaluate (Formula.neg (Formula.var "p")) [("p", true)] ∧
    evaluate (Formula.binOp "-&" (Formula.var "p") (Formula.var "p")) [("p", false)] =
      evaluate (Formula.neg (Formula.var "p")) [("p", false)] := by
  refine ⟨rfl, rfl, rfl, rfl, rfl, rfl⟩

/-- Claim C4: refuted.  Of the seven chapter-3 binary operators the
source's `is_binary` accepts only `&`, `|` and `->`; the constructor
therefore rejects a `+` node (its assert fails), and `_parse_prefix`
rejects the token `+` at the binary-operator position of `(p+q)` with a
diagnostic instead of accepting it.  The repository's own
`test_chapter03.py` requires `is_binary('+')` to hold, so this is a slip
in the code, not in the claim. -/
theorem chapter3_operators_rejected :
    is_binary "&" = true ∧ is_binary "|" = true ∧ is_binary "->" = true ∧
    is_binary "+" = false ∧ is_binary "<->" = false ∧
    is_binary "-&" = false ∧ is_binary "-|" = false ∧
    formulaWf (Formula.binOp "+" (Formula.var "p") (Formula.var "q")) = false ∧
    parsePrefixS "(p+q)" =
      ParseResult.err "Expected binary operator after first operand, found: +q" := by
  refine ⟨rfl, rfl, rfl, rfl, rfl, rfl, rfl, rfl, rfl⟩

/-- Claim C9: refuted.  On the input `p²` the digit scan of
`_parse_prefix` uses `str.isdigit`, which accepts the superscript `²`,
while the `Formula` constructor re-checks the scanned name with
`is_variable`, i.e. `str.isdecimal`, which rejects it — the constructor's
assert fails and `AssertionError` propagates out of the parser, an
uncaught fault rather than a `(None, message)` failure value. -/
theorem parse_crashes_on_superscript :
    parsePrefixS "p²" = ParseResult.crash ∧
    pyIsDigit '²' = true ∧ pyIsDecimal '²' = false ∧
    is_variable "p²" = false := by
  refine ⟨rfl, rfl, rfl, rfl⟩

/-- Claim C1: refuted as stated.  For the non-empty variable list
`['p', 'p']` (every entry a variable name) and the truth-value sequence
`[True, False, False, False]` of length `2^2`, re-evaluating the
synthesized DNF over `all_models(['p', 'p'])` in order yields
`[True, False, True, False]`: the duplicated variable makes two
enumerated models collapse to the same dictionary, so no formula can
reproduce the requested sequence.  The claim holds once the variables are
required to be distinct (`synthesize_roundtrip`). -/
theorem synthesize_duplicate_cex :
    (["p", "p"].all (fun v => is_variable v)) = true ∧
    ([true, false, false, false] : List Bool).length = 2 ^ (["p", "p"] : List String).length ∧
    truth_values (synthesize ["p", "p"] [true, false, false, false])
        (all_models ["p", "p"]) ≠
      [true, false, false, false].map some := by
  refine ⟨rfl, rfl, by decide⟩

/-- Claim C8: refuted as stated, by the same duplicate-variable
phenomenon as the DNF counterexample: for `['p', 'p']` and
`[True, False, False, False]` the synthesized CNF evaluates to
`[False, False, False, False]` over `all_models(['p', 'p'])`.  The claim
holds once the variables are required to be distinct
(`synthesize_cnf_roundtrip`). -/
theorem synthesize_cnf_duplicate_cex :
    (["p", "p"].all (fun v => is_variable v)) = true ∧
    ([true, false, false, false] : List Bool).length = 2 ^ (["p", "p"] : List String).length ∧
    truth_values (synthesize_cnf ["p", "p"] [true, false, false, false])
        (all_models ["p", "p"]) ≠
      [true, false, false, false].map some := by
  refine ⟨rfl, rfl, by decide⟩

/-- Claim C6: confirmed.  `evaluate` realizes the §4.2 truth table on
every binary node whose operands evaluate (`&` both true, `|` at least
one, `->` not-left or right, `+` exactly one, `<->` both equal, `-&` not
both, `-|` neither), and the two concrete scenarios hold: `~(p&q76)` is
true under `{p: True, q76: False}` and false under
`{p: True, q76: True}`. -/
theorem evaluate_matches_table :
    (∀ (m : List (String × Bool)) (l r : Formula) (a b : Bool),
      evaluate l m = some a → evaluate r m = some b →
        evaluate (Formula.binOp "&" l r) m = some (a && b) ∧
        evaluate (Formula.binOp "|" l r) m = some (a || b) ∧
        evaluate (Formula.binOp "->" l r) m = some (!a || b) ∧
        evaluate (Formula.binOp "+" l r) m = some (xor a b) ∧
        evaluate (Formula.binOp "<->" l r) m = some (a == b) ∧
        evaluate (Formula.binOp "-&" l r) m = some (!(a && b)) ∧
        evaluate (Formula.binOp "-|" l r) m = some (!(a || b))) ∧
    evaluate (Formula.neg (Formula.binOp "&" (Formula.var "p") (Formula.var "q76")))
      [("p", true), ("q76", false)] = some true ∧
    evaluate (Formula.neg (Formula.binOp "&" (Formula.var "p") (Formula.var "q76")))
      [("p", true), ("q76", true)] = some false := by
  refine ⟨?_, rfl, rfl⟩
  intro m l r a b ha hb
  refine ⟨?_, ?_, ?_, ?_, ?_, ?_, ?_⟩ <;>
    simp only [evaluate, ha, hb, Option.bind_eq_bind, Option.some_bind] <;>
    cases a <;> cases b <;> rfl

/-- Witness for `evaluate_matches_table` at a concrete instance: the
exactly-one-true row applied to `p + q` under `{p: True, q: True}`. -/
theorem evaluate_matches_table_witness :
    evaluate (Formula.binOp "+" (Formula.var "p") (Formula.var "q"))
      [("p", true), ("q", true)] = some (xor true true) :=
  (evaluate_matches_table.1 [("p", true), ("q", true)]
    (Formula.var "p") (Formula.var "q") true true rfl rfl).2.2.2.1

theorem is_unary_singleton {c : Char} (h : is_unary ⟨[c]⟩ = true) : c = '~' := by
  simp only [is_unary, beq_iff_eq] at h
  have h2 := congrArg String.data h
  simpa using h2

theorem parsePrefixF_ok_repr : ∀ (fuel : Nat) (s : List Char) (f : Formula) (r : List Char),
    parsePrefixF fuel s = ParseResult.ok f r → f.reprL ++ r = s := by
  intro fuel
  induction fuel with
  | zero => intro s f r h; simp [parsePrefixF] at h
  | succ fuel ih =>
    intro s f r h
    match s with
    | [] => simp [parsePrefixF] at h
    | c :: rest =>
      simp only [parsePrefixF] at h
      split at h
      · split at h
        · injection h with h1 h2
          subst h1; subst h2
          simp [Formula.reprL, List.takeWhile_append_dropWhile]
        · simp at h
      · split at h
        · injection h with h1 h2
          subst h1; subst h2
          simp [Formula.reprL]
        · split at h
          · rename_i hvar hconst hunary
            have hc : c = '~' := is_unary_singleton hunary
            subst hc
            split at h
            · rename_i operand rem heq
              injection h with h1 h2
              subst h1; subst h2
              have := ih rest operand rem heq
              simp [Formula.reprL, this]
            · simp at h
            · simp at h
          · split at h
            · rename_i hvar hconst hunary hparen
              subst hparen
              split at h
              · simp at h
              · simp at h
              · rename_i first rem heq1
                have hfirst := ih rest first rem heq1
                split at h
                · rename_i rem' 
                  simp only [finishBinary] at h
                  split at h
                  · rename_i second rem2 heq2
                    split at h
                    · rename_i rem4
                      injection h with h1 h2
                      subst h1; subst h2
                      have hsecond := ih _ second _ heq2
                      simp [Formula.reprL, ← hfirst, ← hsecond]
                    · simp at h
                  · simp at h
                  · simp at h
                · rename_i rem'
                  simp only [finishBinary] at h
                  split at h
                  · rename_i second rem2 heq2
                    split at h
                    · rename_i rem4
                      injection h with h1 h2
                      subst h1; subst h2
                      have hsecond := ih _ second _ heq2
                      simp [Formula.reprL, ← hfirst, ← hsecond]
                    · simp at h
                  · simp at h
                  · simp at h
                · rename_i rem'
                  simp only [finishBinary] at h
                  split at h
                  · rename_i second rem2 heq2
                    split at h
                    · rename_i rem4
                      injection h with h1 h2
                      subst h1; subst h2
                      have hsecond := ih _ second _ heq2
                      simp [Formula.reprL, ← hfirst, ← hsecond]
                    · simp at h
                  · simp at h
                  · simp at h
                · simp at h
            · simp at h

theorem takeWhile_append_of_all {α} (p : α → Bool) (l rest : List α)
    (hl : ∀ x ∈ l, p x = true) (hr : ∀ c, rest.head? = some c → p c = false) :
    (l ++ rest).takeWhile p = l ∧ (l ++ rest).dropWhile p = rest := by
  induction l with
  | nil =>
    simp only [List.nil_append]
    cases rest with
    | nil => simp
    | cons c cs =>
      have hc := hr c rfl
      simp [List.takeWhile, List.dropWhile, hc]
  | cons a l ihl =>
    have ha : p a = true := hl a (by simp)
    have hrec := ihl (fun x hx => hl x (by simp [hx]))
    simp [List.takeWhile, List.dropWhile, ha, hrec.1, hrec.2]

theorem parsePrefixF_repr_ok : ∀ (f : Formula), formulaWf f = true →
    ∀ (rest : List Char) (fuel : Nat),
      (∀ c, rest.head? = some c → pyIsDigit c = false) →
      f.reprL.length + rest.length < fuel →
      parsePrefixF fuel (f.reprL ++ rest) = ParseResult.ok f rest := by
  intro f
  induction f with
  | var s =>
    intro hwf rest fuel hrest hfuel
    simp only [formulaWf] at hwf
    unfold is_variable at hwf
    cases hs : s.data with
    | nil => rw [hs] at hwf; simp at hwf
    | cons c ds =>
      rw [hs] at hwf
      simp only [Bool.and_eq_true, decide_eq_true_eq, List.all_eq_true] at hwf
      obtain ⟨⟨hc1, hc2⟩, hds⟩ := hwf
      simp only [Formula.reprL] at hfuel ⊢
      rw [hs]
      cases fuel with
      | zero => omega
      | succ n =>
        simp only [List.cons_append, parsePrefixF, List.append_eq]
        have hvc : is_variable ⟨[c]⟩ = true := by
          simp [is_variable, hc1, hc2]
        rw [if_pos hvc]
        have htw := takeWhile_append_of_all pyIsDigit ds rest
          (fun x hx => by
            have hxd : x.isDigit = true := hds x hx
            simp [pyIsDigit, hxd]) hrest
        rw [htw.1, htw.2]
        have hv : (⟨c :: ds⟩ : String) = s := by rw [← hs]
        rw [hv]
        have hvs : is_variable s = true := by
          unfold is_variable
          rw [hs]
          simp only [Bool.and_eq_true, decide_eq_true_eq, List.all_eq_true]
          exact ⟨⟨hc1, hc2⟩, hds⟩
        rw [if_pos hvs]
  | const s =>
    intro hwf rest fuel hrest hfuel
    simp only [formulaWf, is_constant, Bool.or_eq_true, beq_iff_eq] at hwf
    simp only [Formula.reprL] at hfuel ⊢
    cases fuel with
    | zero => omega
    | succ n =>
      rcases hwf with h | h <;> subst h <;>
        simp [parsePrefixF, is_variable, is_constant]
  | neg g ihg =>
    intro hwf rest fuel hrest hfuel
    simp only [formulaWf] at hwf
    simp only [Formula.reprL] at hfuel ⊢
    cases fuel with
    | zero => omega
    | succ n =>
      simp only [List.cons_append, parsePrefixF, List.append_eq]
      have hrec := ihg hwf rest n hrest (by simp at hfuel ⊢; omega)
      rw [hrec]
      have h1 : is_variable ⟨['~']⟩ = false := rfl
      have h2 : is_constant ⟨['~']⟩ = false := rfl
      have h3 : is_unary ⟨['~']⟩ = true := rfl
      simp [h1, h2, h3]
  | binOp op l r ihl ihr =>
    intro hwf rest fuel hrest hfuel
    simp only [formulaWf, Bool.and_eq_true] at hwf
    obtain ⟨⟨hop, hwl⟩, hwr⟩ := hwf
    simp only [Formula.reprL] at hfuel ⊢
    cases fuel with
    | zero => omega
    | succ n =>
      simp only [List.cons_append, parsePrefixF, List.append_eq]
      have h1 : is_variable ⟨['(']⟩ = false := rfl
      have h2 : is_constant ⟨['(']⟩ = false := rfl
      have h3 : is_unary ⟨['(']⟩ = false := rfl
      simp only [is_binary, Bool.or_eq_true, beq_iff_eq] at hop
      simp only [List.length_cons, List.length_append] at hfuel
      rcases hop with (h | h) | h <;> subst h
      · rw [show ("&" : String).data = ['&'] from rfl] at hfuel ⊢
        simp only [List.length_cons, List.length_nil] at hfuel
        have hrec2 := ihr hwr (')' :: rest) n
          (by intro c hc; simp at hc; subst hc; decide)
          (by simp; omega)
        have hrec1 := ihl hwl ('&' :: (r.reprL ++ ')' :: rest)) n
          (by intro c hc; simp at hc; subst hc; decide)
          (by simp; omega)
        rw [if_neg (by simp [h1]), if_neg (by simp [h2]), if_neg (by simp [h3])]
        have harg : l.reprL ++ ['&'] ++ r.reprL ++ [')'] ++ rest =
            l.reprL ++ ('&' :: (r.reprL ++ ')' :: rest)) := by simp
        rw [harg, hrec1]
        simp [finishBinary, hrec2]
      · rw [show ("|" : String).data = ['|'] from rfl] at hfuel ⊢
        simp only [List.length_cons, List.length_nil] at hfuel
        have hrec2 := ihr hwr (')' :: rest) n
          (by intro c hc; simp at hc; subst hc; decide)
          (by simp; omega)
        have hrec1 := ihl hwl ('|' :: (r.reprL ++ ')' :: rest)) n
          (by intro c hc; simp at hc; subst hc; decide)
          (by simp; omega)
        rw [if_neg (by simp [h1]), if_neg (by simp [h2]), if_neg (by simp [h3])]
        have harg : l.reprL ++ ['|'] ++ r.reprL ++ [')'] ++ rest =
            l.reprL ++ ('|' :: (r.reprL ++ ')' :: rest)) := by simp
        rw [harg, hrec1]
        simp [finishBinary, hrec2]
      · rw [show ("->" : String).data = ['-', '>'] from rfl] at hfuel ⊢
        simp only [List.length_cons, List.length_nil] at hfuel
        have hrec2 := ihr hwr (')' :: rest) n
          (by intro c hc; simp at hc; subst hc; decide)
          (by simp; omega)
        have hrec1 := ihl hwl ('-' :: '>' :: (r.reprL ++ ')' :: rest)) n
          (by intro c hc; simp at hc; subst hc; decide)
          (by simp; omega)
        rw [if_neg (by simp [h1]), if_neg (by simp [h2]), if_neg (by simp [h3])]
        have harg : l.reprL ++ ['-', '>'] ++ r.reprL ++ [')'] ++ rest =
            l.reprL ++ ('-' :: '>' :: (r.reprL ++ ')' :: rest)) := by simp
        rw [harg, hrec1]
        simp [finishBinary, hrec2]

/-- Claim C10: confirmed.  Whenever `_parse_prefix` returns a formula and
an unconsumed suffix, the formula's canonical text concatenated with that
suffix is exactly the input string. -/
theorem parse_consumed_text (s : String) (f : Formula) (r : List Char)
    (h : parsePrefixS s = ParseResult.ok f r) : f.reprL ++ r = s.data :=
  parsePrefixF_ok_repr _ s.data f r h

/-- Witness for `parse_consumed_text`: parsing a prefix of `p&q` consumes
exactly `p` and leaves `&q`. -/
theorem parse_consumed_text_witness :
    (Formula.var "p").reprL ++ ['&', 'q'] = "p&q".data :=
  parse_consumed_text "p&q" (Formula.var "p") ['&', 'q'] rfl

/-- Claim C3: confirmed against the spec-modelled `Formula.parse` (the
source's `parse`/`is_formula` bodies are unimplemented stubs): parsing the
canonical text of any constructible formula — any tree passing the
constructor's asserts, `formulaWf` — returns that very formula (hence in
particular one equal to it under the source's text-based equality). -/
theorem parse_repr_roundtrip (f : Formula) (h : formulaWf f = true) :
    Formula.parse f.reprStr = some f := by
  unfold Formula.parse parsePrefixS parsePrefixL
  have hr : (Formula.reprStr f).data = f.reprL := rfl
  rw [hr]
  have hmain := parsePrefixF_repr_ok f h [] (f.reprL.length + 1)
    (by intro c hc; simp at hc) (by simp)
  rw [List.append_nil] at hmain
  rw [hmain]

/-- Witness for `parse_repr_roundtrip` at the formula `~(p&q76)`. -/
theorem parse_repr_roundtrip_witness :
    Formula.parse (Formula.neg (Formula.binOp "&" (Formula.var "p")
      (Formula.var "q76"))).reprStr =
    some (Formula.neg (Formula.binOp "&" (Formula.var "p") (Formula.var "q76"))) :=
  parse_repr_roundtrip _ (by decide)

theorem bitsBE_length : ∀ (n i : Nat), (bitsBE n i).length = n
  | 0, _ => rfl
  | n + 1, i => by simp [bitsBE, bitsBE_length n]

theorem boolTuples_eq_range : ∀ n, boolTuples n = (List.range (2 ^ n)).map (bitsBE n) := by
  intro n
  induction n with
  | zero => rfl
  | succ n ih =>
    simp only [boolTuples, ih]
    rw [show 2 ^ (n + 1) = 2 ^ n + 2 ^ n from by ring, List.range_add]
    simp only [List.map_append, List.map_map]
    congr 1
    · apply List.map_congr_left
      intro i hi
      simp only [List.mem_range] at hi
      simp only [Function.comp_apply, bitsBE, Nat.mod_eq_of_lt hi]
      rw [decide_eq_false (by omega)]
    · apply List.map_congr_left
      intro i hi
      simp only [List.mem_range] at hi
      simp only [Function.comp_apply, bitsBE, Nat.add_mod_left, Nat.mod_eq_of_lt hi]
      rw [decide_eq_true (Nat.le_add_right _ _)]

theorem boolTuples_length (n : Nat) : (boolTuples n).length = 2 ^ n := by
  rw [boolTuples_eq_range]; simp

theorem mem_boolTuples_length {n : Nat} {t : List Bool} (h : t ∈ boolTuples n) :
    t.length = n := by
  rw [boolTuples_eq_range] at h
  simp only [List.mem_map] at h
  obtain ⟨i, _, rfl⟩ := h
  exact bitsBE_length n i

theorem dictInsert_fresh : ∀ (d : List (String × Bool)) (k : String) (v : Bool),
    k ∉ d.map Prod.fst → dictInsert d k v = d ++ [(k, v)] := by
  intro d k v
  induction d with
  | nil => intro _; rfl
  | cons p rest ih =>
    intro h
    obtain ⟨k', v'⟩ := p
    simp only [List.map_cons, List.mem_cons, not_or] at h
    obtain ⟨h1, h2⟩ := h
    simp only [dictInsert]
    rw [if_neg (fun hh => h1 hh.symm), ih h2]
    simp

theorem foldl_dictInsert : ∀ (pairs : List (String × Bool)) (acc : List (String × Bool)),
    (pairs.map Prod.fst).Nodup → (∀ k ∈ pairs.map Prod.fst, k ∉ acc.map Prod.fst) →
    pairs.foldl (fun d p => dictInsert d p.1 p.2) acc = acc ++ pairs := by
  intro pairs
  induction pairs with
  | nil => intro acc _ _; simp
  | cons p rest ih =>
    intro acc hnd hfresh
    obtain ⟨k, v⟩ := p
    simp only [List.map_cons, List.nodup_cons] at hnd
    simp only [List.foldl_cons]
    rw [dictInsert_fresh acc k v (hfresh k (by simp))]
    rw [ih (acc ++ [(k, v)]) hnd.2 ?_]
    · simp
    · intro k' hk'
      simp only [List.map_append, List.mem_append, List.map_cons, List.map_nil,
        List.mem_singleton, not_or]
      refine ⟨hfresh k' (by simp [hk']), ?_⟩
      intro hkk
      exact hnd.1 (hkk ▸ hk')

theorem dictOfZip_eq_zip (vs : List String) (bs : List Bool) (hnd : vs.Nodup)
    (hlen : bs.length = vs.length) : dictOfZip vs bs = vs.zip bs := by
  unfold dictOfZip
  rw [foldl_dictInsert (vs.zip bs) [] ?_ ?_]
  · simp
  · rw [List.map_fst_zip vs bs (by omega)]
    exact hnd
  · simp

theorem all_models_zip (vs : List String) (hnd : vs.Nodup) :
    all_models vs = (boolTuples vs.length).map (fun t => vs.zip t) := by
  unfold all_models
  apply List.map_congr_left
  intro t ht
  exact dictOfZip_eq_zip vs t hnd (mem_boolTuples_length ht)

/-- Claim C5: confirmed.  For a list of distinct variable names,
`all_models` yields exactly `2^n` assignments, the `i`-th being the zip of
the variable list with the big-endian binary digits of `i`
(`False` = 0 < `True` = 1, first variable most significant); the empty
list yields exactly the empty assignment. -/
theorem all_models_order (V : List String) (hnd : V.Nodup)
    (hvars : ∀ v ∈ V, is_variable v = true) :
    (all_models V).length = 2 ^ V.length ∧
    all_models V = (List.range (2 ^ V.length)).map (fun i => V.zip (bitsBE V.length i)) ∧
    all_models ([] : List String) = [[]] := by
  refine ⟨?_, ?_, rfl⟩
  · unfold all_models
    rw [List.length_map, boolTuples_length]
  · rw [all_models_zip V hnd, boolTuples_eq_range, List.map_map]
    rfl

/-- Witness for `all_models_order` at `V = ['p', 'q']`. -/
theorem all_models_order_witness :
    (all_models ["p", "q"]).length = 2 ^ (["p", "q"] : List String).length ∧
    all_models ["p", "q"] =
      (List.range (2 ^ (["p", "q"] : List String).length)).map
        (fun i => (["p", "q"] : List String).zip (bitsBE (["p", "q"] : List String).length i)) ∧
    all_models ([] : List String) = [[]] :=
  all_models_order ["p", "q"] (by decide) (by decide)

theorem evaluate_inference_iff (r : InferenceRule) (m : List (String × Bool)) :
    evaluate_inference r m = true ↔
      ((∀ a ∈ r.assumptions, evaluate a m = some true) →
        evaluate r.conclusion m = some true) := by
  unfold evaluate_inference
  split
  · rename_i hall
    simp only [List.all_eq_true, beq_iff_eq] at hall
    simp only [beq_iff_eq]
    exact ⟨fun h _ => h, fun h => h hall⟩
  · rename_i hall
    simp only [List.all_eq_true, beq_iff_eq] at hall
    exact ⟨fun _ hf => absurd hf hall, fun _ => rfl⟩

/-- Claim C7: confirmed against the spec-modelled inference checker (the
source's `evaluate_inference` and `is_sound_inference` bodies are
unimplemented stubs): `is_sound_inference` returns `True` exactly when, in
every model of `all_models(sorted(V))` with `V` the union of the free
variables of assumptions and conclusion, the conclusion evaluates true
whenever all assumptions do (vacuously when no model satisfies them all);
and the rule `[p] ⊢ q` is unsound while `[p] ⊢ p` is sound. -/
theorem is_sound_inference_correct :
    (∀ r : InferenceRule, is_sound_inference r = true ↔
      ∀ m ∈ all_models r.sortedVars,
        ((∀ a ∈ r.assumptions, evaluate a m = some true) →
          evaluate r.conclusion m = some true)) ∧
    is_sound_inference ⟨[Formula.var "p"], Formula.var "q"⟩ = false ∧
    is_sound_inference ⟨[Formula.var "p"], Formula.var "p"⟩ = true := by
  refine ⟨?_, by decide, by decide⟩
  intro r
  unfold is_sound_inference
  simp only [List.all_eq_true, evaluate_inference_iff]

theorem dictGet_cons (k' : String) (v' : Bool) (d : List (String × Bool)) (k : String) :
    dictGet ((k', v') :: d) k = if k' = k then some v' else dictGet d k := by
  by_cases h : k' = k <;> simp [dictGet, List.find?_cons, h]

theorem dictGet_zip_getElem : ∀ (vs : List String) (bs : List Bool), vs.Nodup →
    bs.length = vs.length → ∀ (i : Nat) (hi : i < vs.length) (hb : i < bs.length),
    dictGet (vs.zip bs) vs[i] = some bs[i] := by
  intro vs
  induction vs with
  | nil => intro bs _ _ i hi; simp at hi
  | cons v vs ih =>
    intro bs hnd hlen i hi hb
    cases bs with
    | nil => simp at hlen
    | cons b bs =>
      simp only [List.nodup_cons] at hnd
      cases i with
      | zero =>
        simp only [List.zip_cons_cons, List.getElem_cons_zero]
        rw [dictGet_cons, if_pos rfl]
      | succ i =>
        simp only [List.zip_cons_cons, List.getElem_cons_succ]
        rw [dictGet_cons, if_neg ?_]
        · exact ih bs hnd.2 (by simpa using hlen) i (by simpa using hi) (by simpa using hb)
        · intro hv
          exact hnd.1 (hv ▸ List.getElem_mem _)

theorem all_of_perm {α} {l l' : List α} (h : List.Perm l l') (g : α → Bool) :
    l.all g = l'.all g := by
  cases hl' : l'.all g
  · cases hl : l.all g
    · rfl
    · rw [List.all_eq_true] at hl
      have ht : l'.all g = true := List.all_eq_true.mpr (fun x hx => hl x (h.mem_iff.mpr hx))
      rw [hl'] at ht
      exact ht.symm
  · rw [List.all_eq_true] at hl' ⊢
    exact fun x hx => hl' x (h.mem_iff.mp hx)

theorem any_of_perm {α} {l l' : List α} (h : List.Perm l l') (g : α → Bool) :
    l.any g = l'.any g := by
  have h1 := all_of_perm h (fun x => !g x)
  cases hl : l.any g <;> cases hl' : l'.any g <;>
    simp only [List.any_eq_not_all_not] at hl hl' <;>
    first
    | rfl
    | (exfalso
       rw [← h1] at hl'
       rw [hl'] at hl
       simp at hl)

theorem evaluate_litForModel {m m' : List (String × Bool)} {v : String} {b b' : Bool}
    (hm : dictGet m v = some b) (hm' : dictGet m' v = some b') :
    evaluate (litForModel m v) m' = some (b' == b) := by
  unfold litForModel
  rw [hm]
  cases b <;> simp [evaluate, hm']

theorem evaluate_litForModelC {m m' : List (String × Bool)} {v : String} {b b' : Bool}
    (hm : dictGet m v = some b) (hm' : dictGet m' v = some b') :
    evaluate (litForModelC m v) m' = some (!(b' == b)) := by
  unfold litForModelC
  rw [hm]
  cases b <;> simp [evaluate, hm']

theorem eval_foldl_and_vars (m m' : List (String × Bool)) :
    ∀ (vsl : List String) (acc : Formula) (a : Bool),
    evaluate acc m' = some a →
    (∀ v ∈ vsl, (dictGet m v).isSome ∧ (dictGet m' v).isSome) →
    evaluate (vsl.foldl (fun conj v => Formula.binOp "&" conj (litForModel m v)) acc) m' =
      some (a && vsl.all (fun v => (dictGet m' v).getD false == (dictGet m v).getD false)) := by
  intro vsl
  induction vsl with
  | nil => intro acc a ha _; simpa using ha
  | cons v vsl ih =>
    intro acc a ha hdef
    obtain ⟨hs, hs'⟩ := hdef v (by simp)
    obtain ⟨b, hb⟩ := Option.isSome_iff_exists.mp hs
    obtain ⟨b', hb'⟩ := Option.isSome_iff_exists.mp hs'
    have hlit := evaluate_litForModel hb hb'
    have hacc' : evaluate (Formula.binOp "&" acc (litForModel m v)) m' =
        some (a && (b' == b)) := by
      simp [evaluate, ha, hlit]
    rw [List.foldl_cons]
    rw [ih _ _ hacc' (fun w hw => hdef w (by simp [hw]))]
    simp only [List.all_cons, hb, hb', Option.getD_some]
    rw [Bool.and_assoc]

theorem eval_foldl_or_vars (m m' : List (String × Bool)) :
    ∀ (vsl : List String) (acc : Formula) (a : Bool),
    evaluate acc m' = some a →
    (∀ v ∈ vsl, (dictGet m v).isSome ∧ (dictGet m' v).isSome) →
    evaluate (vsl.foldl (fun disj v => Formula.binOp "|" disj (litForModelC m v)) acc) m' =
      some (a || vsl.any (fun v => !((dictGet m' v).getD false == (dictGet m v).getD false))) := by
  intro vsl
  induction vsl with
  | nil => intro acc a ha _; simpa using ha
  | cons v vsl ih =>
    intro acc a ha hdef
    obtain ⟨hs, hs'⟩ := hdef v (by simp)
    obtain ⟨b, hb⟩ := Option.isSome_iff_exists.mp hs
    obtain ⟨b', hb'⟩ := Option.isSome_iff_exists.mp hs'
    have hlit := evaluate_litForModelC hb hb'
    have hacc' : evaluate (Formula.binOp "|" acc (litForModelC m v)) m' =
        some (a || !(b' == b)) := by
      simp [evaluate, ha, hlit]
    rw [List.foldl_cons]
    rw [ih _ _ hacc' (fun w hw => hdef w (by simp [hw]))]
    simp only [List.any_cons, hb, hb', Option.getD_some]
    rw [Bool.or_assoc]

theorem evaluate_conjClauseOfVars (m m' : List (String × Bool)) (L : List String)
    (hne : L ≠ [])
    (hdef : ∀ v ∈ L, (dictGet m v).isSome ∧ (dictGet m' v).isSome) :
    evaluate (conjClauseOfVars m L) m' =
      some (L.all (fun v => (dictGet m' v).getD false == (dictGet m v).getD false)) := by
  match L with
  | [] => exact absurd rfl hne
  | [v] =>
    obtain ⟨hs, hs'⟩ := hdef v (by simp)
    obtain ⟨b, hb⟩ := Option.isSome_iff_exists.mp hs
    obtain ⟨b', hb'⟩ := Option.isSome_iff_exists.mp hs'
    simp [conjClauseOfVars, evaluate_litForModel hb hb', hb, hb']
  | v0 :: v1 :: rest =>
    obtain ⟨hs0, hs0'⟩ := hdef v0 (by simp)
    obtain ⟨b0, hb0⟩ := Option.isSome_iff_exists.mp hs0
    obtain ⟨b0', hb0'⟩ := Option.isSome_iff_exists.mp hs0'
    obtain ⟨hs1, hs1'⟩ := hdef v1 (by simp)
    obtain ⟨b1, hb1⟩ := Option.isSome_iff_exists.mp hs1
    obtain ⟨b1', hb1'⟩ := Option.isSome_iff_exists.mp hs1'
    have hacc : evaluate (Formula.binOp "&" (litForModel m v0) (litForModel m v1)) m' =
        some ((b0' == b0) && (b1' == b1)) := by
      simp [evaluate, evaluate_litForModel hb0 hb0', evaluate_litForModel hb1 hb1']
    rw [conjClauseOfVars]
    rw [eval_foldl_and_vars m m' rest _ _ hacc (fun w hw => hdef w (by simp [hw]))]
    simp only [List.all_cons, hb0, hb0', hb1, hb1', Option.getD_some]
    rw [Bool.and_assoc]

theorem evaluate_disjClauseOfVars (m m' : List (String × Bool)) (L : List String)
    (hne : L ≠ [])
    (hdef : ∀ v ∈ L, (dictGet m v).isSome ∧ (dictGet m' v).isSome) :
    evaluate (disjClauseOfVars m L) m' =
      some (L.any (fun v => !((dictGet m' v).getD false == (dictGet m v).getD false))) := by
  match L with
  | [] => exact absurd rfl hne
  | [v] =>
    obtain ⟨hs, hs'⟩ := hdef v (by simp)
    obtain ⟨b, hb⟩ := Option.isSome_iff_exists.mp hs
    obtain ⟨b', hb'⟩ := Option.isSome_iff_exists.mp hs'
    simp [disjClauseOfVars, evaluate_litForModelC hb hb', hb, hb']
  | v0 :: v1 :: rest =>
    obtain ⟨hs0, hs0'⟩ := hdef v0 (by simp)
    obtain ⟨b0, hb0⟩ := Option.isSome_iff_exists.mp hs0
    obtain ⟨b0', hb0'⟩ := Option.isSome_iff_exists.mp hs0'
    obtain ⟨hs1, hs1'⟩ := hdef v1 (by simp)
    obtain ⟨b1, hb1⟩ := Option.isSome_iff_exists.mp hs1
    obtain ⟨b1', hb1'⟩ := Option.isSome_iff_exists.mp hs1'
    have hacc : evaluate (Formula.binOp "|" (litForModelC m v0) (litForModelC m v1)) m' =
        some (!(b0' == b0) || !(b1' == b1)) := by
      simp [evaluate, evaluate_litForModelC hb0 hb0', evaluate_litForModelC hb1 hb1']
    rw [disjClauseOfVars]
    rw [eval_foldl_or_vars m m' rest _ _ hacc (fun w hw => hdef w (by simp [hw]))]
    simp only [List.any_cons, hb0, hb0', hb1, hb1', Option.getD_some]
    rw [Bool.or_assoc]

theorem zip_all_agree_iff (vs : List String) (u t : List Bool) (hnd : vs.Nodup)
    (hu : u.length = vs.length) (ht : t.length = vs.length) :
    (vs.all (fun v => (dictGet (vs.zip t) v).getD false ==
      (dictGet (vs.zip u) v).getD false)) = decide (u = t) := by
  by_cases h : u = t
  · subst h
    rw [decide_eq_true rfl]
    rw [List.all_eq_true]
    intro v _
    simp
  · rw [decide_eq_false h]
    cases hall : vs.all (fun v => (dictGet (vs.zip t) v).getD false ==
        (dictGet (vs.zip u) v).getD false)
    · rfl
    · exfalso
      apply h
      rw [List.all_eq_true] at hall
      apply List.ext_getElem (by omega)
      intro i h1 h2
      have hi : i < vs.length := by omega
      have hv := hall vs[i] (List.getElem_mem hi)
      rw [dictGet_zip_getElem vs t hnd ht i hi (by omega),
        dictGet_zip_getElem vs u hnd hu i hi (by omega)] at hv
      simp only [Option.getD_some, beq_iff_eq, decide_eq_true_eq] at hv
      exact (hv.symm : u[i] = t[i])

theorem dictGet_zip_isSome (vs : List String) (u : List Bool) (hnd : vs.Nodup)
    (hu : u.length = vs.length) (v : String) (hv : v ∈ vs) :
    (dictGet (vs.zip u) v).isSome := by
  obtain ⟨i, hi, rfl⟩ := List.mem_iff_getElem.mp hv
  rw [dictGet_zip_getElem vs u hnd hu i hi (by omega)]
  rfl

theorem evaluate_synthesize_for_model_zip (vs : List String) (u t : List Bool)
    (hne : vs ≠ []) (hnd : vs.Nodup) (hu : u.length = vs.length)
    (ht : t.length = vs.length) :
    evaluate (synthesize_for_model (vs.zip u)) (vs.zip t) = some (decide (u = t)) := by
  unfold synthesize_for_model
  have hkeys : dictKeys (vs.zip u) = vs := by
    unfold dictKeys
    exact List.map_fst_zip vs u (by omega)
  rw [hkeys]
  have hperm : List.Perm (sortStrings vs) vs := List.perm_insertionSort _ vs
  rw [evaluate_conjClauseOfVars _ _ _ ?_ ?_]
  · rw [all_of_perm hperm, zip_all_agree_iff vs u t hnd hu ht]
  · intro h0
    rw [h0] at hperm
    exact hne hperm.symm.eq_nil
  · intro v hv
    have hv' : v ∈ vs := hperm.mem_iff.mp hv
    exact ⟨dictGet_zip_isSome vs u hnd hu v hv', dictGet_zip_isSome vs t hnd ht v hv'⟩

theorem evaluate_synthesize_for_all_except_model_zip (vs : List String) (u t : List Bool)
    (hne : vs ≠ []) (hnd : vs.Nodup) (hu : u.length = vs.length)
    (ht : t.length = vs.length) :
    evaluate (synthesize_for_all_except_model (vs.zip u)) (vs.zip t) =
      some (!(decide (u = t))) := by
  unfold synthesize_for_all_except_model
  have hkeys : dictKeys (vs.zip u) = vs := by
    unfold dictKeys
    exact List.map_fst_zip vs u (by omega)
  rw [hkeys]
  have hperm : List.Perm (sortStrings vs) vs := List.perm_insertionSort _ vs
  rw [evaluate_disjClauseOfVars _ _ _ ?_ ?_]
  · rw [any_of_perm hperm]
    rw [show (vs.any (fun v => !((dictGet (vs.zip t) v).getD false ==
        (dictGet (vs.zip u) v).getD false))) =
      !(vs.all (fun v => (dictGet (vs.zip t) v).getD false ==
        (dictGet (vs.zip u) v).getD false)) from by
        rw [List.any_eq_not_all_not]
        simp]
    rw [zip_all_agree_iff vs u t hnd hu ht]
  · intro h0
    rw [h0] at hperm
    exact hne hperm.symm.eq_nil
  · intro v hv
    have hv' : v ∈ vs := hperm.mem_iff.mp hv
    exact ⟨dictGet_zip_isSome vs u hnd hu v hv', dictGet_zip_isSome vs t hnd ht v hv'⟩

theorem eval_foldl_or_forms (m : List (String × Bool)) :
    ∀ (cs : List Formula) (acc : Formula) (a : Bool),
    evaluate acc m = some a → (∀ c ∈ cs, (evaluate c m).isSome) →
    evaluate (cs.foldl (fun disj c => Formula.binOp "|" disj c) acc) m =
      some (a || cs.any (fun c => (evaluate c m).getD false)) := by
  intro cs
  induction cs with
  | nil => intro acc a ha _; simpa using ha
  | cons c cs ih =>
    intro acc a ha hdef
    obtain ⟨b, hb⟩ := Option.isSome_iff_exists.mp (hdef c (by simp))
    have hacc' : evaluate (Formula.binOp "|" acc c) m = some (a || b) := by
      simp [evaluate, ha, hb]
    rw [List.foldl_cons, ih _ _ hacc' (fun w hw => hdef w (by simp [hw]))]
    simp only [List.any_cons, hb, Option.getD_some]
    rw [Bool.or_assoc]

theorem eval_foldl_and_forms (m : List (String × Bool)) :
    ∀ (cs : List Formula) (acc : Formula) (a : Bool),
    evaluate acc m = some a → (∀ c ∈ cs, (evaluate c m).isSome) →
    evaluate (cs.foldl (fun conj c => Formula.binOp "&" conj c) acc) m =
      some (a && cs.all (fun c => (evaluate c m).getD false)) := by
  intro cs
  induction cs with
  | nil => intro acc a ha _; simpa using ha
  | cons c cs ih =>
    intro acc a ha hdef
    obtain ⟨b, hb⟩ := Option.isSome_iff_exists.mp (hdef c (by simp))
    have hacc' : evaluate (Formula.binOp "&" acc c) m = some (a && b) := by
      simp [evaluate, ha, hb]
    rw [List.foldl_cons, ih _ _ hacc' (fun w hw => hdef w (by simp [hw]))]
    simp only [List.all_cons, hb, Option.getD_some]
    rw [Bool.and_assoc]

theorem evaluate_dnfOfClauses (m : List (String × Bool)) (v0 : String) (vtl : List String)
    (b0 : Bool) (hv0 : dictGet m v0 = some b0) (cs : List Formula)
    (hcs : ∀ c ∈ cs, (evaluate c m).isSome) :
    evaluate (dnfOfClauses (v0 :: vtl) cs) m =
      some (cs.any (fun c => (evaluate c m).getD false)) := by
  match cs with
  | [] =>
    simp only [dnfOfClauses, List.any_nil]
    simp [evaluate, hv0]
  | [c] =>
    obtain ⟨b, hb⟩ := Option.isSome_iff_exists.mp (hcs c (by simp))
    simp [dnfOfClauses, hb]
  | c0 :: c1 :: rest =>
    obtain ⟨x0, hx0⟩ := Option.isSome_iff_exists.mp (hcs c0 (by simp))
    obtain ⟨x1, hx1⟩ := Option.isSome_iff_exists.mp (hcs c1 (by simp))
    have hacc : evaluate (Formula.binOp "|" c0 c1) m = some (x0 || x1) := by
      simp [evaluate, hx0, hx1]
    rw [dnfOfClauses]
    rw [eval_foldl_or_forms m rest _ _ hacc (fun w hw => hcs w (by simp [hw]))]
    simp only [List.any_cons, hx0, hx1, Option.getD_some]
    rw [Bool.or_assoc]

theorem evaluate_cnfOfClauses (m : List (String × Bool)) (v0 : String) (vtl : List String)
    (b0 : Bool) (hv0 : dictGet m v0 = some b0) (cs : List Formula)
    (hcs : ∀ c ∈ cs, (evaluate c m).isSome) :
    evaluate (cnfOfClauses (v0 :: vtl) cs) m =
      some (cs.all (fun c => (evaluate c m).getD false)) := by
  match cs with
  | [] =>
    simp only [cnfOfClauses, List.all_nil]
    simp [evaluate, hv0]
  | [c] =>
    obtain ⟨b, hb⟩ := Option.isSome_iff_exists.mp (hcs c (by simp))
    simp [cnfOfClauses, hb]
  | c0 :: c1 :: rest =>
    obtain ⟨x0, hx0⟩ := Option.isSome_iff_exists.mp (hcs c0 (by simp))
    obtain ⟨x1, hx1⟩ := Option.isSome_iff_exists.mp (hcs c1 (by simp))
    have hacc : evaluate (Formula.binOp "&" c0 c1) m = some (x0 && x1) := by
      simp [evaluate, hx0, hx1]
    rw [cnfOfClauses]
    rw [eval_foldl_and_forms m rest _ _ hacc (fun w hw => hcs w (by simp [hw]))]
    simp only [List.all_cons, hx0, hx1, Option.getD_some]
    rw [Bool.and_assoc]

theorem any_filterMap_if {α β} (P : List (α × Bool)) (h : α → β) (ev : β → Bool) :
    (P.filterMap (fun p => if p.2 then some (h p.1) else none)).any ev =
      P.any (fun p => p.2 && ev (h p.1)) := by
  induction P with
  | nil => rfl
  | cons p P ih =>
    obtain ⟨x, b⟩ := p
    cases b <;> simp [List.filterMap_cons, ih]

theorem all_filterMap_ifnot {α β} (P : List (α × Bool)) (h : α → β) (ev : β → Bool) :
    (P.filterMap (fun p => if p.2 then none else some (h p.1))).all ev =
      P.all (fun p => p.2 || ev (h p.1)) := by
  induction P with
  | nil => rfl
  | cons p P ih =>
    obtain ⟨x, b⟩ := p
    cases b <;> simp [List.filterMap_cons, ih]

theorem any_congr_mem {α} {l : List α} {p q : α → Bool} (h : ∀ x ∈ l, p x = q x) :
    l.any p = l.any q := by
  induction l with
  | nil => rfl
  | cons x l ih =>
    simp only [List.any_cons, h x (by simp), ih (fun y hy => h y (by simp [hy]))]

theorem all_congr_mem {α} {l : List α} {p q : α → Bool} (h : ∀ x ∈ l, p x = q x) :
    l.all p = l.all q := by
  induction l with
  | nil => rfl
  | cons x l ih =>
    simp only [List.all_cons, h x (by simp), ih (fun y hy => h y (by simp [hy]))]

theorem boolTuples_nodup : ∀ n, (boolTuples n).Nodup := by
  intro n
  induction n with
  | zero => simp [boolTuples]
  | succ n ih =>
    simp only [boolTuples]
    apply List.Nodup.append
    · exact ih.map (fun a b hab => by injection hab)
    · exact ih.map (fun a b hab => by injection hab)
    · intro x hx hy
      simp only [List.mem_map] at hx hy
      obtain ⟨a, _, rfl⟩ := hx
      obtain ⟨b, _, hb⟩ := hy
      injection hb with hb1 _
      exact Bool.false_ne_true hb1.symm

theorem evaluate_synthesize_at_row (vs : List String) (values : List Bool) (t : List Bool)
    (hne : vs ≠ []) (hnd : vs.Nodup) (ht : t.length = vs.length) :
    evaluate (synthesize vs values) (vs.zip t) =
      some (((boolTuples vs.length).zip values).any
        (fun p => p.2 && decide (p.1 = t))) := by
  obtain ⟨v0, vtl, rfl⟩ : ∃ v0 vtl, vs = v0 :: vtl := by
    cases vs with
    | nil => exact absurd rfl hne
    | cons v0 vtl => exact ⟨v0, vtl, rfl⟩
  obtain ⟨t0, ttl, rfl⟩ : ∃ t0 ttl, t = t0 :: ttl := by
    cases t with
    | nil => simp at ht
    | cons t0 ttl => exact ⟨t0, ttl, rfl⟩
  have hv0 : dictGet ((v0 :: vtl).zip (t0 :: ttl)) v0 = some t0 := by
    simp only [List.zip_cons_cons]
    rw [dictGet_cons, if_pos rfl]
  unfold synthesize
  rw [all_models_zip _ hnd, List.zip_map_left, List.filterMap_map]
  have hcomp : ((fun p : List (String × Bool) × Bool =>
      if p.2 then some (synthesize_for_model p.1) else none) ∘
        Prod.map (fun t => (v0 :: vtl).zip t) id) =
      (fun p : List Bool × Bool =>
        if p.2 then some (synthesize_for_model ((v0 :: vtl).zip p.1)) else none) := by
    funext p
    obtain ⟨x, b⟩ := p
    rfl
  rw [hcomp]
  have hmemlen : ∀ u ∈ boolTuples (v0 :: vtl).length, u.length = (v0 :: vtl).length :=
    fun u hu => mem_boolTuples_length hu
  have hcs : ∀ c ∈ ((boolTuples (v0 :: vtl).length).zip values).filterMap
      (fun p : List Bool × Bool =>
        if p.2 then some (synthesize_for_model ((v0 :: vtl).zip p.1)) else none),
      (evaluate c ((v0 :: vtl).zip (t0 :: ttl))).isSome := by
    intro c hc
    simp only [List.mem_filterMap] at hc
    obtain ⟨p, hp, hpc⟩ := hc
    by_cases hb : p.2 = true
    · rw [if_pos hb] at hpc
      obtain ⟨rfl⟩ := Option.some.injEq _ _ ▸ hpc
      have hu : p.1.length = (v0 :: vtl).length :=
        hmemlen p.1 (List.of_mem_zip hp).1
      rw [evaluate_synthesize_for_model_zip _ _ _ hne hnd hu ht]
      rfl
    · rw [if_neg hb] at hpc
      exact absurd hpc (by simp)
  rw [evaluate_dnfOfClauses _ v0 vtl t0 hv0 _ hcs]
  rw [any_filterMap_if ((boolTuples (v0 :: vtl).length).zip values)
    (fun u => synthesize_for_model ((v0 :: vtl).zip u))
    (fun c => (evaluate c ((v0 :: vtl).zip (t0 :: ttl))).getD false)]
  congr 1
  apply any_congr_mem
  intro p hp
  by_cases hb : p.2 = true
  · have hu : p.1.length = (v0 :: vtl).length := hmemlen p.1 (List.of_mem_zip hp).1
    rw [evaluate_synthesize_for_model_zip _ _ _ hne hnd hu ht]
    simp
  · simp only [Bool.not_eq_true] at hb
    rw [hb]
    simp

theorem evaluate_synthesize_cnf_at_row (vs : List String) (values : List Bool) (t : List Bool)
    (hne : vs ≠ []) (hnd : vs.Nodup) (ht : t.length = vs.length) :
    evaluate (synthesize_cnf vs values) (vs.zip t) =
      some (((boolTuples vs.length).zip values).all
        (fun p => p.2 || !(decide (p.1 = t)))) := by
  obtain ⟨v0, vtl, rfl⟩ : ∃ v0 vtl, vs = v0 :: vtl := by
    cases vs with
    | nil => exact absurd rfl hne
    | cons v0 vtl => exact ⟨v0, vtl, rfl⟩
  obtain ⟨t0, ttl, rfl⟩ : ∃ t0 ttl, t = t0 :: ttl := by
    cases t with
    | nil => simp at ht
    | cons t0 ttl => exact ⟨t0, ttl, rfl⟩
  have hv0 : dictGet ((v0 :: vtl).zip (t0 :: ttl)) v0 = some t0 := by
    simp only [List.zip_cons_cons]
    rw [dictGet_cons, if_pos rfl]
  unfold synthesize_cnf
  rw [all_models_zip _ hnd, List.zip_map_left, List.filterMap_map]
  have hcomp : ((fun p : List (String × Bool) × Bool =>
      if p.2 then none else some (synthesize_for_all_except_model p.1)) ∘
        Prod.map (fun t => (v0 :: vtl).zip t) id) =
      (fun p : List Bool × Bool =>
        if p.2 then none else some (synthesize_for_all_except_model ((v0 :: vtl).zip p.1))) := by
    funext p
    obtain ⟨x, b⟩ := p
    rfl
  rw [hcomp]
  have hmemlen : ∀ u ∈ boolTuples (v0 :: vtl).length, u.length = (v0 :: vtl).length :=
    fun u hu => mem_boolTuples_length hu
  have hcs : ∀ c ∈ ((boolTuples (v0 :: vtl).length).zip values).filterMap
      (fun p : List Bool × Bool =>
        if p.2 then none else some (synthesize_for_all_except_model ((v0 :: vtl).zip p.1))),
      (evaluate c ((v0 :: vtl).zip (t0 :: ttl))).isSome := by
    intro c hc
    simp only [List.mem_filterMap] at hc
    obtain ⟨p, hp, hpc⟩ := hc
    by_cases hb : p.2 = true
    · rw [if_pos hb] at hpc
      exact absurd hpc (by simp)
    · rw [if_neg hb] at hpc
      obtain ⟨rfl⟩ := Option.some.injEq _ _ ▸ hpc
      have hu : p.1.length = (v0 :: vtl).length :=
        hmemlen p.1 (List.of_mem_zip hp).1
      rw [evaluate_synthesize_for_all_except_model_zip _ _ _ hne hnd hu ht]
      rfl
  rw [evaluate_cnfOfClauses _ v0 vtl t0 hv0 _ hcs]
  rw [all_filterMap_ifnot ((boolTuples (v0 :: vtl).length).zip values)
    (fun u => synthesize_for_all_except_model ((v0 :: vtl).zip u))
    (fun c => (evaluate c ((v0 :: vtl).zip (t0 :: ttl))).getD false)]
  congr 1
  apply all_congr_mem
  intro p hp
  by_cases hb : p.2 = true
  · rw [hb]
    simp
  · simp only [Bool.not_eq_true] at hb
    have hu : p.1.length = (v0 :: vtl).length := hmemlen p.1 (List.of_mem_zip hp).1
    rw [evaluate_synthesize_for_all_except_model_zip _ _ _ hne hnd hu ht]
    simp [hb]

/-- Claim C1 (amended: the variable names are distinct): confirmed.  For
every non-empty list of distinct variable names and every truth-value
sequence of length `2^n`, evaluating the DNF returned by `synthesize` at
each model of `all_models` in enumeration order reproduces the sequence
exactly. -/
theorem synthesize_roundtrip (vs : List String) (values : List Bool)
    (hne : vs ≠ []) (hnd : vs.Nodup) (hvars : ∀ v ∈ vs, is_variable v = true)
    (hlen : values.length = 2 ^ vs.length) :
    truth_values (synthesize vs values) (all_models vs) = values.map some := by
  unfold truth_values
  rw [all_models_zip _ hnd, List.map_map]
  have hTlen : (boolTuples vs.length).length = 2 ^ vs.length := boolTuples_length _
  apply List.ext_getElem
  · simp [hTlen, hlen]
  intro i h1 h2
  simp only [List.length_map] at h1 h2
  simp only [List.getElem_map, Function.comp_apply]
  have hiT : i < (boolTuples vs.length).length := h1
  have ht : (boolTuples vs.length)[i].length = vs.length :=
    mem_boolTuples_length (List.getElem_mem hiT)
  rw [evaluate_synthesize_at_row vs values _ hne hnd ht]
  congr 1
  cases hv : values[i] with
  | true =>
    apply List.any_eq_true.mpr
    have hzlen : i < ((boolTuples vs.length).zip values).length := by
      simp only [List.length_zip]
      omega
    refine ⟨((boolTuples vs.length).zip values)[i], List.getElem_mem hzlen, ?_⟩
    rw [List.getElem_zip]
    simp [hv]
  | false =>
    cases hany : ((boolTuples vs.length).zip values).any
        (fun p => p.2 && decide (p.1 = (boolTuples vs.length)[i])) with
    | false => rfl
    | true =>
      exfalso
      obtain ⟨p, hp, hpp⟩ := List.any_eq_true.mp hany
      obtain ⟨j, hj, rfl⟩ := List.mem_iff_getElem.mp hp
      rw [List.getElem_zip] at hpp
      simp only [Bool.and_eq_true, decide_eq_true_eq] at hpp
      obtain ⟨hpj, hpeq⟩ := hpp
      have hji : j = i := ((boolTuples_nodup vs.length).getElem_inj_iff).mp hpeq
      subst hji
      rw [hv] at hpj
      exact Bool.false_ne_true hpj

/-- Witness for `synthesize_roundtrip`: the spec's concrete scenario
`synthesize(['p','q'], [True, True, True, False])`. -/
theorem synthesize_roundtrip_witness :
    truth_values (synthesize ["p", "q"] [true, true, true, false])
      (all_models ["p", "q"]) = [true, true, true, false].map some :=
  synthesize_roundtrip ["p", "q"] [true, true, true, false]
    (by decide) (by decide) (by decide) (by decide)

/-- Claim C8 (amended: the variable names are distinct): confirmed against
the spec-modelled `synthesize_cnf`: the CNF built from one disjunctive
clause per false row (or the guaranteed tautology from the first variable
when no row is false) reproduces the truth-value sequence over
`all_models` in enumeration order. -/
theorem synthesize_cnf_roundtrip (vs : List String) (values : List Bool)
    (hne : vs ≠ []) (hnd : vs.Nodup) (hvars : ∀ v ∈ vs, is_variable v = true)
    (hlen : values.length = 2 ^ vs.length) :
    truth_values (synthesize_cnf vs values) (all_models vs) = values.map some := by
  unfold truth_values
  rw [all_models_zip _ hnd, List.map_map]
  have hTlen : (boolTuples vs.length).length = 2 ^ vs.length := boolTuples_length _
  apply List.ext_getElem
  · simp [hTlen, hlen]
  intro i h1 h2
  simp only [List.length_map] at h1 h2
  simp only [List.getElem_map, Function.comp_apply]
  have hiT : i < (boolTuples vs.length).length := h1
  have ht : (boolTuples vs.length)[i].length = vs.length :=
    mem_boolTuples_length (List.getElem_mem hiT)
  rw [evaluate_synthesize_cnf_at_row vs values _ hne hnd ht]
  congr 1
  cases hv : values[i] with
  | true =>
    apply List.all_eq_true.mpr
    intro p hp
    obtain ⟨j, hj, rfl⟩ := List.mem_iff_getElem.mp hp
    have hjT : j < (boolTuples vs.length).length := by
      simp only [List.length_zip] at hj
      omega
    have hjv : j < values.length := by
      simp only [List.length_zip] at hj
      omega
    rw [List.getElem_zip]
    by_cases hvj : values[j] = true
    · simp [hvj]
    · have hne2 : (boolTuples vs.length)[j] ≠ (boolTuples vs.length)[i] := by
        intro heq
        have hji : j = i := ((boolTuples_nodup vs.length).getElem_inj_iff).mp heq
        subst hji
        rw [hv] at hvj
        exact hvj rfl
      simp [decide_eq_false hne2]
  | false =>
    cases hall : ((boolTuples vs.length).zip values).all
        (fun p => p.2 || !(decide (p.1 = (boolTuples vs.length)[i]))) with
    | false => rfl
    | true =>
      exfalso
      have hzlen : i < ((boolTuples vs.length).zip values).length := by
        simp only [List.length_zip]
        omega
      have hcontra := List.all_eq_true.mp hall _ (List.getElem_mem hzlen)
      rw [List.getElem_zip] at hcontra
      simp [hv] at hcontra

/-- Witness for `synthesize_cnf_roundtrip`: the spec's concrete scenario
`synthesize_cnf(['p','q'], [True, True, True, False])`. -/
theorem synthesize_cnf_roundtrip_witness :
    truth_values (synthesize_cnf ["p", "q"] [true, true, true, false])
      (all_models ["p", "q"]) = [true, true, true, false].map some :=
  synthesize_cnf_roundtrip ["p", "q"] [true, true, true, false]
    (by decide) (by decide) (by decide) (by decide)

theorem to_not_and_or_spec : ∀ (f : Formula), formulaWfChapter3 f = true →
    ∃ g, to_not_and_or f = some g ∧ opsNotAndOr g = true ∧
      (∀ v ∈ g.variablesL, v ∈ f.variablesL ∨ v = "p") ∧
      (hasConst f = false → ∀ v ∈ g.variablesL, v ∈ f.variablesL) ∧
      (∀ m, (dictGet m "p").isSome → evaluate g m = evaluate f m) := by
  intro f
  induction f with
  | var s =>
    intro _
    exact ⟨.var s, rfl, rfl, fun v hv => Or.inl hv, fun _ v hv => hv, fun m _ => rfl⟩
  | const s =>
    intro hwf
    simp only [formulaWfChapter3, is_constant, Bool.or_eq_true, beq_iff_eq] at hwf
    rcases hwf with h | h <;> subst h
    · refine ⟨Formula.binOp "|" (.var "p") (.neg (.var "p")), rfl, rfl, ?_, ?_, ?_⟩
      · intro v hv
        simp only [Formula.variablesL, List.mem_append, List.mem_singleton] at hv
        right
        rcases hv with h | h <;> exact h
      · intro hc
        simp [hasConst] at hc
      · intro m hp
        obtain ⟨b, hb⟩ := Option.isSome_iff_exists.mp hp
        simp [evaluate, hb]
    · refine ⟨Formula.binOp "&" (.var "p") (.neg (.var "p")), rfl, rfl, ?_, ?_, ?_⟩
      · intro v hv
        simp only [Formula.variablesL, List.mem_append, List.mem_singleton] at hv
        right
        rcases hv with h | h <;> exact h
      · intro hc
        simp [hasConst] at hc
      · intro m hp
        obtain ⟨b, hb⟩ := Option.isSome_iff_exists.mp hp
        simp [evaluate, hb]
  | neg f ihf =>
    intro hwf
    obtain ⟨g, hg, hops, hvars, hnoc, heval⟩ := ihf hwf
    refine ⟨.neg g, ?_, by simpa [opsNotAndOr] using hops, ?_, ?_, ?_⟩
    · simp [to_not_and_or, hg]
    · simpa [Formula.variablesL] using hvars
    · intro hc
      exact hnoc (by simpa [hasConst] using hc)
    · intro m hp
      simp [evaluate, heval m hp]
  | binOp op l r ihl ihr =>
    intro hwf
    simp only [formulaWfChapter3, Bool.and_eq_true] at hwf
    obtain ⟨⟨hop, hwl⟩, hwr⟩ := hwf
    obtain ⟨gl, hgl, hopsl, hvl, hncl, hevl⟩ := ihl hwl
    obtain ⟨gr, hgr, hopsr, hvr, hncr, hevr⟩ := ihr hwr
    have hvarsG : ∀ (G : Formula),
        (∀ v ∈ G.variablesL, v ∈ gl.variablesL ∨ v ∈ gr.variablesL) →
        (∀ v ∈ G.variablesL, v ∈ (Formula.binOp op l r).variablesL ∨ v = "p") ∧
        (hasConst (Formula.binOp op l r) = false →
          ∀ v ∈ G.variablesL, v ∈ (Formula.binOp op l r).variablesL) := by
      intro G hG
      constructor
      · intro v hv
        simp only [Formula.variablesL, List.mem_append]
        rcases hG v hv with h | h
        · rcases hvl v h with h2 | h2
          · exact Or.inl (Or.inl h2)
          · exact Or.inr h2
        · rcases hvr v h with h2 | h2
          · exact Or.inl (Or.inr h2)
          · exact Or.inr h2
      · intro hc v hv
        simp only [hasConst, Bool.or_eq_false_iff] at hc
        simp only [Formula.variablesL, List.mem_append]
        rcases hG v hv with h | h
        · exact Or.inl (hncl hc.1 v h)
        · exact Or.inr (hncr hc.2 v h)
    simp only [is_binary_chapter3, Bool.or_eq_true, beq_iff_eq] at hop
    rcases hop with ((((((h | h) | h) | h) | h) | h) | h) <;> subst h
    · refine ⟨Formula.binOp "&" gl gr, ?_, by simp [opsNotAndOr, hopsl, hopsr],
        (hvarsG _ (by intro v hv; simp only [Formula.variablesL, List.mem_append] at hv; tauto)).1,
        (hvarsG _ (by intro v hv; simp only [Formula.variablesL, List.mem_append] at hv; tauto)).2, ?_⟩
      · simp only [to_not_and_or]
        rw [hgl, hgr]
        rfl
      · intro m hp
        simp only [evaluate]
        rw [hevl m hp, hevr m hp]
    · refine ⟨Formula.binOp "|" gl gr, ?_, by simp [opsNotAndOr, hopsl, hopsr],
        (hvarsG _ (by intro v hv; simp only [Formula.variablesL, List.mem_append] at hv; tauto)).1,
        (hvarsG _ (by intro v hv; simp only [Formula.variablesL, List.mem_append] at hv; tauto)).2, ?_⟩
      · simp only [to_not_and_or]
        rw [hgl, hgr]
        rfl
      · intro m hp
        simp only [evaluate]
        rw [hevl m hp, hevr m hp]
    · refine ⟨Formula.binOp "|" (.neg gl) gr, ?_, by simp [opsNotAndOr, hopsl, hopsr],
        (hvarsG _ (by intro v hv; simp only [Formula.variablesL, List.mem_append] at hv; tauto)).1,
        (hvarsG _ (by intro v hv; simp only [Formula.variablesL, List.mem_append] at hv; tauto)).2, ?_⟩
      · simp only [to_not_and_or]
        rw [hgl, hgr]
        rfl
      · intro m hp
        simp only [evaluate]
        rw [hevl m hp, hevr m hp]
        rcases hl : evaluate l m with _ | a
        · rfl
        rcases hr : evaluate r m with _ | b
        · rfl
        cases a <;> cases b <;> rfl
    · refine ⟨Formula.binOp "&" (.binOp "|" gl gr) (.neg (.binOp "&" gl gr)), ?_,
        by simp [opsNotAndOr, hopsl, hopsr],
        (hvarsG _ (by intro v hv; simp only [Formula.variablesL, List.mem_append] at hv; tauto)).1,
        (hvarsG _ (by intro v hv; simp only [Formula.variablesL, List.mem_append] at hv; tauto)).2, ?_⟩
      · simp only [to_not_and_or]
        rw [hgl, hgr]
        rfl
      · intro m hp
        simp only [evaluate]
        rw [hevl m hp, hevr m hp]
        rcases hl : evaluate l m with _ | a
        · rfl
        rcases hr : evaluate r m with _ | b
        · rfl
        cases a <;> cases b <;> rfl
    · refine ⟨Formula.binOp "|" (.binOp "&" gl gr) (.binOp "&" (.neg gl) (.neg gr)), ?_,
        by simp [opsNotAndOr, hopsl, hopsr],
        (hvarsG _ (by intro v hv; simp only [Formula.variablesL, List.mem_append] at hv; tauto)).1,
        (hvarsG _ (by intro v hv; simp only [Formula.variablesL, List.mem_append] at hv; tauto)).2, ?_⟩
      · simp only [to_not_and_or]
        rw [hgl, hgr]
        rfl
      · intro m hp
        simp only [evaluate]
        rw [hevl m hp, hevr m hp]
        rcases hl : evaluate l m with _ | a
        · rfl
        rcases hr : evaluate r m with _ | b
        · rfl
        cases a <;> cases b <;> rfl
    · refine ⟨Formula.neg (.binOp "&" gl gr), ?_, by simp [opsNotAndOr, hopsl, hopsr],
        (hvarsG _ (by intro v hv; simp only [Formula.variablesL, List.mem_append] at hv; tauto)).1,
        (hvarsG _ (by intro v hv; simp only [Formula.variablesL, List.mem_append] at hv; tauto)).2, ?_⟩
      · simp only [to_not_and_or]
        rw [hgl, hgr]
        rfl
      · intro m hp
        simp only [evaluate]
        rw [hevl m hp, hevr m hp]
        rcases hl : evaluate l m with _ | a
        · rfl
        rcases hr : evaluate r m with _ | b
        · rfl
        cases a <;> cases b <;> rfl
    · refine ⟨Formula.neg (.binOp "|" gl gr), ?_, by simp [opsNotAndOr, hopsl, hopsr],
        (hvarsG _ (by intro v hv; simp only [Formula.variablesL, List.mem_append] at hv; tauto)).1,
        (hvarsG _ (by intro v hv; simp only [Formula.variablesL, List.mem_append] at hv; tauto)).2, ?_⟩
      · simp only [to_not_and_or]
        rw [hgl, hgr]
        rfl
      · intro m hp
        simp only [evaluate]
        rw [hevl m hp, hevr m hp]
        rcases hl : evaluate l m with _ | a
        · rfl
        rcases hr : evaluate r m with _ | b
        · rfl
        cases a <;> cases b <;> rfl

theorem to_not_and_or_fix : ∀ (g : Formula), opsNotAndOr g = true →
    to_not_and_or g = some g := by
  intro g
  induction g with
  | var s => intro _; rfl
  | const s => intro h; simp [opsNotAndOr] at h
  | neg f ih =>
    intro h
    simp [to_not_and_or, ih h]
  | binOp op l r ihl ihr =>
    intro h
    simp only [opsNotAndOr, Bool.and_eq_true, Bool.or_eq_true, beq_iff_eq] at h
    obtain ⟨⟨hop, hl⟩, hr⟩ := h
    simp only [to_not_and_or]
    rw [ihl hl, ihr hr]
    rcases hop with h | h <;> subst h <;> rfl

theorem opsNotAnd_le : ∀ (g : Formula), opsNotAnd g = true → opsNotAndOr g = true := by
  intro g
  induction g with
  | var s => intro _; rfl
  | const s => intro h; simp [opsNotAnd] at h
  | neg f ih => intro h; exact ih h
  | binOp op l r ihl ihr =>
    intro h
    simp only [opsNotAnd, Bool.and_eq_true, beq_iff_eq] at h
    obtain ⟨⟨hop, hl⟩, hr⟩ := h
    subst hop
    simp [opsNotAndOr, ihl hl, ihr hr]

theorem notAndBody_fix : ∀ (g : Formula), opsNotAnd g = true →
    notAndBody g = some g := by
  intro g
  induction g with
  | var s => intro _; rfl
  | const s => intro h; simp [opsNotAnd] at h
  | neg f ih => intro h; simp [notAndBody, ih h]
  | binOp op l r ihl ihr =>
    intro h
    simp only [opsNotAnd, Bool.and_eq_true, beq_iff_eq] at h
    obtain ⟨⟨hop, hl⟩, hr⟩ := h
    subst hop
    simp only [notAndBody]
    rw [ihl hl, ihr hr]
    rfl

theorem to_not_and_fix (g : Formula) (h : opsNotAnd g = true) : to_not_and g = some g := by
  unfold to_not_and
  rw [to_not_and_or_fix g (opsNotAnd_le g h)]
  exact notAndBody_fix g h

theorem notAndBody_spec : ∀ (g : Formula), opsNotAndOr g = true →
    ∃ h, notAndBody g = some h ∧ opsNotAnd h = true ∧
      (∀ v ∈ h.variablesL, v ∈ g.variablesL) ∧
      (∀ m, evaluate h m = evaluate g m) := by
  intro g
  induction g with
  | var s => intro _; exact ⟨.var s, rfl, rfl, fun v hv => hv, fun m => rfl⟩
  | const s => intro h; simp [opsNotAndOr] at h
  | neg f ih =>
    intro hops
    obtain ⟨h, hh, hops2, hv, he⟩ := ih hops
    refine ⟨.neg h, ?_, hops2, hv, ?_⟩
    · simp [notAndBody, hh]
    · intro m
      simp [evaluate, he m]
  | binOp op l r ihl ihr =>
    intro hops
    simp only [opsNotAndOr, Bool.and_eq_true, Bool.or_eq_true, beq_iff_eq] at hops
    obtain ⟨⟨hop, hl⟩, hr⟩ := hops
    obtain ⟨h1, hh1, hops1, hv1, he1⟩ := ihl hl
    obtain ⟨h2, hh2, hops2, hv2, he2⟩ := ihr hr
    have hvars : ∀ (H : Formula),
        (∀ v ∈ H.variablesL, v ∈ h1.variablesL ∨ v ∈ h2.variablesL) →
        ∀ v ∈ H.variablesL, v ∈ (Formula.binOp op l r).variablesL := by
      intro H hH v hv
      simp only [Formula.variablesL, List.mem_append]
      rcases hH v hv with h | h
      · exact Or.inl (hv1 v h)
      · exact Or.inr (hv2 v h)
    rcases hop with h | h <;> subst h
    · refine ⟨Formula.binOp "&" h1 h2, ?_, by simp [opsNotAnd, hops1, hops2],
        hvars _ (by intro v hv; simpa [Formula.variablesL] using hv), ?_⟩
      · simp only [notAndBody]
        rw [hh1, hh2]
        rfl
      · intro m
        simp only [evaluate]
        rw [he1 m, he2 m]
    · refine ⟨Formula.neg (.binOp "&" (.neg h1) (.neg h2)), ?_,
        by simp [opsNotAnd, hops1, hops2],
        hvars _ (by intro v hv; simpa [Formula.variablesL] using hv), ?_⟩
      · simp only [notAndBody]
        rw [hh1, hh2]
        rfl
      · intro m
        simp only [evaluate]
        rw [he1 m, he2 m]
        rcases hel : evaluate l m with _ | a
        · rfl
        rcases her : evaluate r m with _ | b
        · rfl
        cases a <;> cases b <;> rfl

theorem nandBody_spec : ∀ (g : Formula), opsNotAnd g = true →
    ∃ h, nandBody g = some h ∧
      (∀ v ∈ h.variablesL, v ∈ g.variablesL) ∧
      (∀ m, evaluate h m = evaluate g m) := by
  intro g
  induction g with
  | var s => intro _; exact ⟨.var s, rfl, fun v hv => hv, fun m => rfl⟩
  | const s => intro h; simp [opsNotAnd] at h
  | neg f ih =>
    intro hops
    obtain ⟨h, hh, hv, he⟩ := ih hops
    refine ⟨Formula.binOp "-&" h h, ?_, ?_, ?_⟩
    · simp [nandBody, hh]
    · intro v hv2
      simp only [Formula.variablesL, List.mem_append] at hv2
      rcases hv2 with h2 | h2 <;> exact hv v h2
    · intro m
      simp only [evaluate]
      rw [he m]
      rcases hef : evaluate f m with _ | a
      · rfl
      cases a <;> rfl
  | binOp op l r ihl ihr =>
    intro hops
    simp only [opsNotAnd, Bool.and_eq_true, beq_iff_eq] at hops
    obtain ⟨⟨hop, hl⟩, hr⟩ := hops
    subst hop
    obtain ⟨h1, hh1, hv1, he1⟩ := ihl hl
    obtain ⟨h2, hh2, hv2, he2⟩ := ihr hr
    refine ⟨Formula.binOp "-&" (.binOp "-&" h1 h2) (.binOp "-&" h1 h2), ?_, ?_, ?_⟩
    · simp only [nandBody]
      rw [hh1, hh2]
      rfl
    · intro v hv
      simp only [Formula.variablesL, List.mem_append] at hv ⊢
      rcases hv with (h | h) | (h | h)
      · exact Or.inl (hv1 v h)
      · exact Or.inr (hv2 v h)
      · exact Or.inl (hv1 v h)
      · exact Or.inr (hv2 v h)
    · intro m
      simp only [evaluate]
      rw [he1 m, he2 m]
      rcases hel : evaluate l m with _ | a
      · rfl
      rcases her : evaluate r m with _ | b
      · rfl
      cases a <;> cases b <;> rfl

theorem impliesNotBody_spec : ∀ (g : Formula), opsNotAndOr g = true →
    ∃ h, impliesNotBody g = some h ∧
      (∀ v ∈ h.variablesL, v ∈ g.variablesL) ∧
      (∀ m, evaluate h m = evaluate g m) := by
  intro g
  induction g with
  | var s => intro _; exact ⟨.var s, rfl, fun v hv => hv, fun m => rfl⟩
  | const s => intro h; simp [opsNotAndOr] at h
  | neg f ih =>
    intro hops
    obtain ⟨h, hh, hv, he⟩ := ih hops
    refine ⟨.neg h, by simp [impliesNotBody, hh], hv, ?_⟩
    intro m
    simp [evaluate, he m]
  | binOp op l r ihl ihr =>
    intro hops
    simp only [opsNotAndOr, Bool.and_eq_true, Bool.or_eq_true, beq_iff_eq] at hops
    obtain ⟨⟨hop, hl⟩, hr⟩ := hops
    obtain ⟨h1, hh1, hv1, he1⟩ := ihl hl
    obtain ⟨h2, hh2, hv2, he2⟩ := ihr hr
    have hvars : ∀ (H : Formula),
        (∀ v ∈ H.variablesL, v ∈ h1.variablesL ∨ v ∈ h2.variablesL) →
        ∀ v ∈ H.variablesL, v ∈ (Formula.binOp op l r).variablesL := by
      intro H hH v hv
      simp only [Formula.variablesL, List.mem_append]
      rcases hH v hv with h | h
      · exact Or.inl (hv1 v h)
      · exact Or.inr (hv2 v h)
    rcases hop with h | h <;> subst h
    · refine ⟨Formula.neg (.binOp "->" h1 (.neg h2)), ?_,
        hvars _ (by intro v hv; simpa [Formula.variablesL] using hv), ?_⟩
      · simp only [impliesNotBody]
        rw [hh1, hh2]
        rfl
      · intro m
        simp only [evaluate]
        rw [he1 m, he2 m]
        rcases hel : evaluate l m with _ | a
        · rfl
        rcases her : evaluate r m with _ | b
        · rfl
        cases a <;> cases b <;> rfl
    · refine ⟨Formula.binOp "->" (.neg h1) h2, ?_,
        hvars _ (by intro v hv; simpa [Formula.variablesL] using hv), ?_⟩
      · simp only [impliesNotBody]
        rw [hh1, hh2]
        rfl
      · intro m
        simp only [evaluate]
        rw [he1 m, he2 m]
        rcases hel : evaluate l m with _ | a
        · rfl
        rcases her : evaluate r m with _ | b
        · rfl
        cases a <;> cases b <;> rfl

theorem impliesFalseBody_spec : ∀ (g : Formula), opsNotAndOr g = true →
    ∃ h, impliesFalseBody g = some h ∧
      (∀ v ∈ h.variablesL, v ∈ g.variablesL) ∧
      (∀ m, evaluate h m = evaluate g m) := by
  intro g
  induction g with
  | var s => intro _; exact ⟨.var s, rfl, fun v hv => hv, fun m => rfl⟩
  | const s => intro h; simp [opsNotAndOr] at h
  | neg f ih =>
    intro hops
    obtain ⟨h, hh, hv, he⟩ := ih hops
    refine ⟨Formula.binOp "->" h (.const "F"), ?_, ?_, ?_⟩
    · simp [impliesFalseBody, hh]
    · intro v hv2
      simp only [Formula.variablesL, List.mem_append, List.not_mem_nil, or_false] at hv2
      exact hv v hv2
    · intro m
      simp only [evaluate]
      rw [he m]
      rcases hef : evaluate f m with _ | a
      · rfl
      cases a <;> rfl
  | binOp op l r ihl ihr =>
    intro hops
    simp only [opsNotAndOr, Bool.and_eq_true, Bool.or_eq_true, beq_iff_eq] at hops
    obtain ⟨⟨hop, hl⟩, hr⟩ := hops
    obtain ⟨h1, hh1, hv1, he1⟩ := ihl hl
    obtain ⟨h2, hh2, hv2, he2⟩ := ihr hr
    have hvars : ∀ (H : Formula),
        (∀ v ∈ H.variablesL, v ∈ h1.variablesL ∨ v ∈ h2.variablesL) →
        ∀ v ∈ H.variablesL, v ∈ (Formula.binOp op l r).variablesL := by
      intro H hH v hv
      simp only [Formula.variablesL, List.mem_append]
      rcases hH v hv with h | h
      · exact Or.inl (hv1 v h)
      · exact Or.inr (hv2 v h)
    rcases hop with h | h <;> subst h
    · refine ⟨Formula.binOp "->"
          (.binOp "->" h1 (.binOp "->" h2 (.const "F"))) (.const "F"), ?_,
        hvars _ (by intro v hv; simpa [Formula.variablesL] using hv), ?_⟩
      · simp only [impliesFalseBody]
        rw [hh1, hh2]
        rfl
      · intro m
        simp only [evaluate]
        rw [he1 m, he2 m]
        rcases hel : evaluate l m with _ | a
        · rfl
        rcases her : evaluate r m with _ | b
        · rfl
        cases a <;> cases b <;> rfl
    · refine ⟨Formula.binOp "->" (.binOp "->" h1 (.const "F")) h2, ?_,
        hvars _ (by intro v hv; simpa [Formula.variablesL] using hv), ?_⟩
      · simp only [impliesFalseBody]
        rw [hh1, hh2]
        rfl
      · intro m
        simp only [evaluate]
        rw [he1 m, he2 m]
        rcases hel : evaluate l m with _ | a
        · rfl
        rcases her : evaluate r m with _ | b
        · rfl
        cases a <;> cases b <;> rfl

/-- Rewrite preservation for `to_not_and_or` under the chapter-3 operator
set: on every constructible chapter-3 formula the rewrite succeeds, its
output evaluates identically on every model defining the reserved
variable `p`, and it introduces no free variable beyond `p` — `p` only
when a constant occurs in the input. -/
theorem to_not_and_or_preserves (f : Formula) (hwf : formulaWfChapter3 f = true) :
    ∃ g, to_not_and_or f = some g ∧
      (∀ v ∈ g.variablesL, v ∈ f.variablesL ∨ v = "p") ∧
      (hasConst f = false → ∀ v ∈ g.variablesL, v ∈ f.variablesL) ∧
      (∀ m, (dictGet m "p").isSome → evaluate g m = evaluate f m) := by
  obtain ⟨g, hg, _, hv, hnc, he⟩ := to_not_and_or_spec f hwf
  exact ⟨g, hg, hv, hnc, he⟩

/-- Rewrite preservation for `to_not_and`, as in
`to_not_and_or_preserves`. -/
theorem to_not_and_preserves (f : Formula) (hwf : formulaWfChapter3 f = true) :
    ∃ g, to_not_and f = some g ∧
      (∀ v ∈ g.variablesL, v ∈ f.variablesL ∨ v = "p") ∧
      (hasConst f = false → ∀ v ∈ g.variablesL, v ∈ f.variablesL) ∧
      (∀ m, (dictGet m "p").isSome → evaluate g m = evaluate f m) := by
  obtain ⟨g1, hg1, hops1, hv1, hnc1, he1⟩ := to_not_and_or_spec f hwf
  obtain ⟨g2, hg2, _, hv2, he2⟩ := notAndBody_spec g1 hops1
  refine ⟨g2, ?_, ?_, ?_, ?_⟩
  · unfold to_not_and
    rw [hg1]
    exact hg2
  · exact fun v hv => hv1 v (hv2 v hv)
  · exact fun hc v hv => hnc1 hc v (hv2 v hv)
  · exact fun m hp => (he2 m).trans (he1 m hp)

/-- Rewrite preservation for `to_nand`, as in `to_not_and_or_preserves`;
this is the semantic half of claim C2 for the NAND basis — the source
still crashes building the `-&` nodes, because `is_binary` lacks the
chapter-3 operators (`to_nand_constructor_rejects`). -/
theorem to_nand_preserves (f : Formula) (hwf : formulaWfChapter3 f = true) :
    ∃ g, to_nand f = some g ∧
      (∀ v ∈ g.variablesL, v ∈ f.variablesL ∨ v = "p") ∧
      (hasConst f = false → ∀ v ∈ g.variablesL, v ∈ f.variablesL) ∧
      (∀ m, (dictGet m "p").isSome → evaluate g m = evaluate f m) := by
  obtain ⟨g1, hg1, hops1, hv1, hnc1, he1⟩ := to_not_and_or_spec f hwf
  obtain ⟨g2, hg2, hops2, hv2, he2⟩ := notAndBody_spec g1 hops1
  obtain ⟨g3, hg3, hv3, he3⟩ := nandBody_spec g2 hops2
  refine ⟨g3, ?_, ?_, ?_, ?_⟩
  · unfold to_nand to_not_and
    rw [hg1]
    simp only [Option.some_bind]
    rw [hg2]
    exact hg3
  · exact fun v hv => hv1 v (hv2 v (hv3 v hv))
  · exact fun hc v hv => hnc1 hc v (hv2 v (hv3 v hv))
  · exact fun m hp => ((he3 m).trans (he2 m)).trans (he1 m hp)

/-- Rewrite preservation for `to_implies_not`, as in
`to_not_and_or_preserves`. -/
theorem to_implies_not_preserves (f : Formula) (hwf : formulaWfChapter3 f = true) :
    ∃ g, to_implies_not f = some g ∧
      (∀ v ∈ g.variablesL, v ∈ f.variablesL ∨ v = "p") ∧
      (hasConst f = false → ∀ v ∈ g.variablesL, v ∈ f.variablesL) ∧
      (∀ m, (dictGet m "p").isSome → evaluate g m = evaluate f m) := by
  obtain ⟨g1, hg1, hops1, hv1, hnc1, he1⟩ := to_not_and_or_spec f hwf
  obtain ⟨g2, hg2, hv2, he2⟩ := impliesNotBody_spec g1 hops1
  refine ⟨g2, ?_, ?_, ?_, ?_⟩
  · unfold to_implies_not
    rw [hg1]
    exact hg2
  · exact fun v hv => hv1 v (hv2 v hv)
  · exact fun hc v hv => hnc1 hc v (hv2 v hv)
  · exact fun m hp => (he2 m).trans (he1 m hp)

/-- Rewrite preservation for `to_implies_false`, as in
`to_not_and_or_preserves`. -/
theorem to_implies_false_preserves (f : Formula) (hwf : formulaWfChapter3 f = true) :
    ∃ g, to_implies_false f = some g ∧
      (∀ v ∈ g.variablesL, v ∈ f.variablesL ∨ v = "p") ∧
      (hasConst f = false → ∀ v ∈ g.variablesL, v ∈ f.variablesL) ∧
      (∀ m, (dictGet m "p").isSome → evaluate g m = evaluate f m) := by
  obtain ⟨g1, hg1, hops1, hv1, hnc1, he1⟩ := to_not_and_or_spec f hwf
  obtain ⟨g2, hg2, hv2, he2⟩ := impliesFalseBody_spec g1 hops1
  refine ⟨g2, ?_, ?_, ?_, ?_⟩
  · unfold to_implies_false
    rw [hg1]
    exact hg2
  · exact fun v hv => hv1 v (hv2 v hv)
  · exact fun hc v hv => hnc1 hc v (hv2 v hv)
  · exact fun m hp => (he2 m).trans (he1 m hp)
